import Mathlib

/-!
Verification of the go-concurrency repository's LRU cache (package caches:
lru.go, lru_entity.go, entity_list.go) and of the index-based operations of
the companion concurrent linked list (package collections).

Modelling choices.  The Go cache couples a hash map `mp : map[K]*lruEntity`
with an intrusive doubly-linked list of the same entities.  Since the map
holds at most one live entity per key, keys serve as node identities: the
heap of entities is the association list `mp`, and every pointer field
(`prev`, `next`, `head`, `tail`) is an `Option K` naming a live entity.
Every Go statement that mutates a pointer field becomes a functional update
of `mp`.  Go `int` is modelled as `Int`; the zero value of a Go value type
is `default` of an `Inhabited` type; a Go `error` result is an `Option`
of an error datatype.
-/

namespace Caches

variable {K V : Type} [DecidableEq K]

/-- An lruEntity: key is implicit (it is the association-list key), value and
the two intrusive links. mirrors lru_entity.go. -/
structure lruEntity (K V : Type) where
  value : V
  prev : Option K
  next : Option K
deriving DecidableEq

/-- The hash index `mp map[K]*lruEntity[K,V]`, as an association list. -/
abbrev EMap (K V : Type) := List (K × lruEntity K V)

/-- Go map read `mp[k]`. -/
def mapLookup : EMap K V → K → Option (lruEntity K V)
  | [], _ => none
  | (k', e) :: rest, k => if k' = k then some e else mapLookup rest k

/-- Go map write `mp[k] = e` (replace in place, or append a fresh key). -/
def mapSet : EMap K V → K → lruEntity K V → EMap K V
  | [], k, e => [(k, e)]
  | (k', e') :: rest, k, e =>
    if k' = k then (k, e) :: rest else (k', e') :: mapSet rest k e

/-- Go `delete(mp, k)`. -/
def mapDelete : EMap K V → K → EMap K V
  | [], _ => []
  | (k', e') :: rest, k => if k' = k then rest else (k', e') :: mapDelete rest k

/-- A Go field assignment through a live pointer: `entity.f = x` becomes an
in-place update of the entity stored at that key (no-op on a dead key, which
the cache never does). -/
def mapModify (mp : EMap K V) (k : K) (f : lruEntity K V → lruEntity K V) :
    EMap K V :=
  match mapLookup mp k with
  | some e => mapSet mp k (f e)
  | none => mp

/-- Read `entity.prev` through a pointer. -/
def optPrev (mp : EMap K V) (k : K) : Option K :=
  match mapLookup mp k with
  | some e => e.prev
  | none => none

/-- Read `entity.next` through a pointer. -/
def optNext (mp : EMap K V) (k : K) : Option K :=
  match mapLookup mp k with
  | some e => e.next
  | none => none

/-- entityList: just the head and tail pointers (entity_list.go). -/
structure entityList (K : Type) where
  head : Option K
  tail : Option K
deriving DecidableEq

/-- lruEntity.insertBefore: `e.insertBefore(entity)` inserts `entity`
directly before `e`; heap effect only.  Statement-by-statement:
entity.prev = e.prev; entity.next = e; e.prev = entity;
if entity.prev != nil { entity.prev.next = entity }. -/
def insertBefore (mp : EMap K V) (e entity : K) : EMap K V :=
  let p := optPrev mp e
  let mp1 := mapModify mp entity (fun x => { x with prev := p, next := some e })
  let mp2 := mapModify mp1 e (fun x => { x with prev := some entity })
  match optPrev mp2 entity with
  | some q => mapModify mp2 q (fun x => { x with next := some entity })
  | none => mp2

/-- lruEntity.removeYourself: relink the two neighbours around `e`:
if e.prev != nil { e.prev.next = e.next };
if e.next != nil { e.next.prev = e.prev }. -/
def removeYourself (mp : EMap K V) (e : K) : EMap K V :=
  let mp1 :=
    match optPrev mp e with
    | some p => mapModify mp p (fun x => { x with next := optNext mp e })
    | none => mp
  match optNext mp1 e with
  | some n => mapModify mp1 n (fun x => { x with prev := optPrev mp1 e })
  | none => mp1

/-- entityList.setHead. -/
def elSetHead (mp : EMap K V) (el : entityList K) (entity : K) :
    EMap K V × entityList K :=
  let mp1 := mapModify mp entity (fun x => { x with prev := none })
  match el.head with
  | some h => (insertBefore mp1 h entity, { el with head := some entity })
  | none => (mp1, { head := some entity, tail := some entity })

/-- entityList.removeEntity. -/
def elRemoveEntity (mp : EMap K V) (el : entityList K) (entity : K) :
    EMap K V × entityList K :=
  let mp1 := removeYourself mp entity
  let el1 := if el.head = some entity then { el with head := optNext mp1 entity } else el
  let el2 := if el1.tail = some entity then { el1 with tail := optPrev mp1 entity } else el1
  (mp1, el2)

/-- entityList.moveToHead. -/
def elMoveToHead (mp : EMap K V) (el : entityList K) (entity : K) :
    EMap K V × entityList K :=
  if el.head = some entity then (mp, el)
  else
    let r := elRemoveEntity mp el entity
    elSetHead r.1 r.2 entity

/-- entityList.clear. -/
def elClear : entityList K := { head := none, tail := none }

/-- The LRU cache state (lru.go).  The mutex is not part of the state: every
public operation runs inside one critical section, so operations are modelled
as whole-state functions. -/
structure LRU (K V : Type) where
  mp : EMap K V
  entities : entityList K
  limit : Int
deriving DecidableEq

/-- LRU.evictEntity: removeEntity; entity.prev = nil; entity.next = nil;
delete(mp, key). -/
def evictEntity (lru : LRU K V) (key : K) : LRU K V :=
  let r := elRemoveEntity lru.mp lru.entities key
  let mp2 := mapModify r.1 key (fun x => { x with prev := none, next := none })
  { lru with mp := mapDelete mp2 key, entities := r.2 }

/-- LRU.putEntity: mp[key] = entity; entities.setHead(entity);
if len(mp) > limit { evictEntity(entities.tail) }.  After setHead the list is
nonempty, so the tail is never nil; the `none` arm is unreachable. -/
def putEntity (lru : LRU K V) (key : K) (e : lruEntity K V) : LRU K V :=
  let mp1 := mapSet lru.mp key e
  let r := elSetHead mp1 lru.entities key
  let lru1 : LRU K V := { lru with mp := r.1, entities := r.2 }
  if (r.1.length : Int) > lru.limit then
    match r.2.tail with
    | some t => evictEntity lru1 t
    | none => lru1
  else lru1

/-- LRU.Put. -/
def put (lru : LRU K V) (key : K) (value : V) : LRU K V :=
  match mapLookup lru.mp key with
  | none => putEntity lru key { value := value, prev := none, next := none }
  | some e =>
    let mp1 := mapSet lru.mp key { e with value := value }
    let r := elMoveToHead mp1 lru.entities key
    { lru with mp := r.1, entities := r.2 }

/-- LRU.PutIfAbsent: returns (inserted?, value now mapped, new state). -/
def putIfAbsent (lru : LRU K V) (key : K) (value : V) : Bool × V × LRU K V :=
  match mapLookup lru.mp key with
  | none =>
    (true, value, putEntity lru key { value := value, prev := none, next := none })
  | some e => (false, e.value, lru)

/-- LRU.Get: returns (found?, value or zero value, new state). -/
def get [Inhabited V] (lru : LRU K V) (key : K) : Bool × V × LRU K V :=
  match mapLookup lru.mp key with
  | some e =>
    let r := elMoveToHead lru.mp lru.entities key
    (true, e.value, { lru with mp := r.1, entities := r.2 })
  | none => (false, default, lru)

/-- LRU.Evict: returns (found?, removed value or zero value, new state). -/
def evict [Inhabited V] (lru : LRU K V) (key : K) : Bool × V × LRU K V :=
  match mapLookup lru.mp key with
  | some e => (true, e.value, evictEntity lru key)
  | none => (false, default, lru)

/-- LRU.Clear: mp = fresh empty map; entities.clear(). -/
def clear (lru : LRU K V) : LRU K V :=
  { lru with mp := [], entities := elClear }

/-- LRU.Size: len(lru.mp). -/
def size (lru : LRU K V) : Nat := lru.mp.length

/-- NewLRU. -/
def NewLRU (K V : Type) (limit : Int) : LRU K V :=
  { mp := [], entities := { head := none, tail := none }, limit := limit }

/-- The keys currently in the hash index. -/
def keysOf (mp : EMap K V) : List K := mp.map Prod.fst

/-- The stored value for a key, if any. -/
def valOf (mp : EMap K V) (k : K) : Option V :=
  (mapLookup mp k).map lruEntity.value

/-- Walk the order list from a starting pointer via next, with fuel
(len(mp) suffices on any well-formed state). -/
def walkFrom (mp : EMap K V) : Option K → Nat → List K
  | none, _ => []
  | some _, 0 => []
  | some k, n + 1 => k :: walkFrom mp (optNext mp k) n

/-- The keys reachable by walking the order list from head via next. -/
def walkKeys (lru : LRU K V) : List K :=
  walkFrom lru.mp lru.entities.head lru.mp.length

/-! ### Association-list (hash index) lemmas -/

theorem mapLookup_mapSet_self (mp : EMap K V) (k : K) (e : lruEntity K V) :
    mapLookup (mapSet mp k e) k = some e := by
  induction mp with
  | nil => simp [mapSet, mapLookup]
  | cons he rest ih =>
    obtain ⟨k', e'⟩ := he
    by_cases h : k' = k <;> simp [mapSet, mapLookup, h, ih]

theorem mapLookup_mapSet_ne (mp : EMap K V) {k x : K} (e : lruEntity K V)
    (h : x ≠ k) : mapLookup (mapSet mp k e) x = mapLookup mp x := by
  induction mp with
  | nil => simp [mapSet, mapLookup, Ne.symm h]
  | cons he rest ih =>
    obtain ⟨k', e'⟩ := he
    by_cases hk : k' = k
    · subst hk
      simp [mapSet, mapLookup, Ne.symm h]
    · simp [mapSet, mapLookup, hk, ih]

theorem keysOf_length (mp : EMap K V) : (keysOf mp).length = mp.length := by
  simp [keysOf]

theorem mapLookup_eq_none_iff (mp : EMap K V) (k : K) :
    mapLookup mp k = none ↔ k ∉ keysOf mp := by
  induction mp with
  | nil => simp [mapLookup, keysOf]
  | cons he rest ih =>
    obtain ⟨k', e'⟩ := he
    rw [show keysOf ((k', e') :: rest) = k' :: keysOf rest from rfl]
    by_cases h : k' = k
    · subst h
      simp [mapLookup]
    · rw [mapLookup, if_neg h, ih, List.mem_cons]
      simp [Ne.symm h]

theorem keysOf_cons (k : K) (e : lruEntity K V) (rest : EMap K V) :
    keysOf ((k, e) :: rest) = k :: keysOf rest := rfl

theorem keysOf_mapSet_present (mp : EMap K V) {k : K} (e : lruEntity K V)
    (h : mapLookup mp k ≠ none) : keysOf (mapSet mp k e) = keysOf mp := by
  induction mp with
  | nil => simp [mapLookup] at h
  | cons he rest ih =>
    obtain ⟨k', e'⟩ := he
    by_cases hk : k' = k
    · simp [mapSet, keysOf_cons, hk]
    · simp only [mapLookup, if_neg hk] at h
      simp only [mapSet, if_neg hk, keysOf_cons, ih h]

theorem keysOf_mapSet_absent (mp : EMap K V) {k : K} (e : lruEntity K V)
    (h : mapLookup mp k = none) : keysOf (mapSet mp k e) = keysOf mp ++ [k] := by
  induction mp with
  | nil => simp [mapSet, keysOf]
  | cons he rest ih =>
    obtain ⟨k', e'⟩ := he
    by_cases hk : k' = k
    · simp [mapLookup, hk] at h
    · simp only [mapLookup, if_neg hk] at h
      simp only [mapSet, if_neg hk, keysOf_cons, ih h, List.cons_append]

theorem keysOf_mapDelete (mp : EMap K V) (k : K) :
    keysOf (mapDelete mp k) = (keysOf mp).erase k := by
  induction mp with
  | nil => simp [mapDelete, keysOf]
  | cons he rest ih =>
    obtain ⟨k', e'⟩ := he
    by_cases hk : k' = k
    · subst hk
      rw [mapDelete, if_pos rfl, keysOf_cons, List.erase_cons_head]
    · rw [mapDelete, if_neg hk, keysOf_cons, keysOf_cons, List.erase_cons,
        if_neg (by simp [hk]), ih]

theorem mapLookup_mapDelete_ne (mp : EMap K V) {k x : K} (h : x ≠ k) :
    mapLookup (mapDelete mp k) x = mapLookup mp x := by
  induction mp with
  | nil => simp [mapDelete]
  | cons he rest ih =>
    obtain ⟨k', e'⟩ := he
    by_cases hk : k' = k
    · subst hk
      simp [mapDelete, mapLookup, Ne.symm h]
    · simp [mapDelete, mapLookup, hk, ih]

theorem mapLookup_mapDelete_self (mp : EMap K V) (k : K)
    (h : (keysOf mp).Nodup) : mapLookup (mapDelete mp k) k = none := by
  induction mp with
  | nil => simp [mapDelete, mapLookup]
  | cons he rest ih =>
    obtain ⟨k', e'⟩ := he
    rw [keysOf_cons, List.nodup_cons] at h
    by_cases hk : k' = k
    · subst hk
      rw [mapDelete, if_pos rfl, mapLookup_eq_none_iff]
      exact h.1
    · simp [mapDelete, mapLookup, hk, ih h.2]

theorem mapModify_absent (mp : EMap K V) (k : K) (f : lruEntity K V → lruEntity K V)
    (h : mapLookup mp k = none) : mapModify mp k f = mp := by
  simp [mapModify, h]

theorem mapLookup_mapModify_self {mp : EMap K V} {k : K} {e : lruEntity K V}
    (f : lruEntity K V → lruEntity K V) (h : mapLookup mp k = some e) :
    mapLookup (mapModify mp k f) k = some (f e) := by
  simp [mapModify, h, mapLookup_mapSet_self]

theorem mapLookup_mapModify_ne (mp : EMap K V) {k x : K}
    (f : lruEntity K V → lruEntity K V) (h : x ≠ k) :
    mapLookup (mapModify mp k f) x = mapLookup mp x := by
  rw [mapModify]
  cases hl : mapLookup mp k with
  | none => rfl
  | some e => exact mapLookup_mapSet_ne mp _ h

theorem keysOf_mapModify (mp : EMap K V) (k : K) (f : lruEntity K V → lruEntity K V) :
    keysOf (mapModify mp k f) = keysOf mp := by
  rw [mapModify]
  cases hl : mapLookup mp k with
  | none => rfl
  | some e => exact keysOf_mapSet_present mp _ (by simp [hl])

theorem valOf_mapModify (mp : EMap K V) (k : K) (f : lruEntity K V → lruEntity K V)
    (hf : ∀ e, (f e).value = e.value) (x : K) :
    valOf (mapModify mp k f) x = valOf mp x := by
  by_cases hx : x = k
  · subst hx
    cases hl : mapLookup mp x with
    | none => rw [mapModify_absent mp x f hl]
    | some e =>
      rw [valOf, mapLookup_mapModify_self f hl, valOf, hl]
      simp [hf]
  · simp [valOf, mapLookup_mapModify_ne mp f hx]

theorem optPrev_some {mp : EMap K V} {k : K} {e : lruEntity K V}
    (h : mapLookup mp k = some e) : optPrev mp k = e.prev := by
  simp [optPrev, h]

theorem optNext_some {mp : EMap K V} {k : K} {e : lruEntity K V}
    (h : mapLookup mp k = some e) : optNext mp k = e.next := by
  simp [optNext, h]

/-! ### The doubly-linked-chain predicate -/

/-- First element of a segment, with a fallthrough for the empty segment. -/
def headD : List K → Option K → Option K
  | [], t => t
  | k :: _, _ => some k

/-- Last element of a segment, with a fallthrough for the empty segment. -/
def lastD : List K → Option K → Option K
  | [], p => p
  | k :: rest, _ => lastD rest (some k)

/-- The pair of link fields of an entity. -/
def linksOf (e : lruEntity K V) : Option K × Option K := (e.prev, e.next)

/-- linkedSeg mp p ks t: the keys ks form a consecutive doubly-linked segment
whose first element has prev = p and whose last element has next = t. -/
def linkedSeg (mp : EMap K V) : Option K → List K → Option K → Prop
  | _, [], _ => True
  | p, k :: rest, t =>
    (∃ e, mapLookup mp k = some e ∧ e.prev = p ∧ e.next = headD rest t) ∧
      linkedSeg mp (some k) rest t

theorem headD_append (xs ys : List K) (t : Option K) :
    headD (xs ++ ys) t = headD xs (headD ys t) := by
  cases xs <;> rfl

theorem lastD_append (xs ys : List K) (p : Option K) :
    lastD (xs ++ ys) p = lastD ys (lastD xs p) := by
  induction xs generalizing p with
  | nil => rfl
  | cons x xs ih => simp [lastD, ih]

theorem lastD_eq_getLast? : ∀ (ks : List K) (p : Option K),
    lastD ks p = ks.getLast?.or p
  | [], _ => rfl
  | [k], _ => rfl
  | k :: r :: rs, p => by
    rw [List.getLast?_cons_cons]
    exact lastD_eq_getLast? (r :: rs) (some k)

theorem headD_eq_head? (ks : List K) : headD ks none = ks.head? := by
  cases ks <;> rfl

theorem lastD_mem : ∀ (ks : List K) (p : Option K) (q : K),
    lastD ks p = some q → q ∈ ks ∨ p = some q
  | [], _, _, h => Or.inr h
  | k :: rest, _, q, h => by
    rcases lastD_mem rest (some k) q h with hm | hm
    · exact Or.inl (List.mem_cons_of_mem _ hm)
    · simp only [Option.some.injEq] at hm
      exact Or.inl (hm ▸ List.mem_cons_self _ _)

theorem linkedSeg_congr {mp mp' : EMap K V} :
    ∀ {ks : List K} {p t : Option K},
    (∀ x ∈ ks, (mapLookup mp' x).map linksOf = (mapLookup mp x).map linksOf) →
    linkedSeg mp p ks t → linkedSeg mp' p ks t
  | [], _, _, _, _ => trivial
  | k :: rest, p, t, h, hs => by
    obtain ⟨⟨e, he, hp, hn⟩, hrest⟩ := hs
    have hk := h k (List.mem_cons_self _ _)
    rw [he] at hk
    constructor
    · cases hl : mapLookup mp' k with
      | none => rw [hl] at hk; simp at hk
      | some e' =>
        rw [hl] at hk
        simp only [Option.map_some', Option.some.injEq, linksOf, Prod.mk.injEq] at hk
        exact ⟨e', rfl, hk.1.trans hp, hk.2.trans hn⟩
    · exact linkedSeg_congr (fun x hx => h x (List.mem_cons_of_mem _ hx)) hrest

theorem linkedSeg_append {mp : EMap K V} :
    ∀ (xs : List K) {ys : List K} {p t : Option K},
    linkedSeg mp p (xs ++ ys) t ↔
      linkedSeg mp p xs (headD ys t) ∧ linkedSeg mp (lastD xs p) ys t
  | [], ys, p, t => by simp [linkedSeg, lastD]
  | x :: xs, ys, p, t => by
    simp only [List.cons_append, linkedSeg, lastD, List.append_eq, headD_append,
      linkedSeg_append xs, and_assoc]

/-! ### Well-formedness of the order list -/

/-- ks is the head-to-tail chain of the order list: consecutive entities are
doubly linked, the first has no predecessor, the last no successor, and the
head/tail pointers frame it. -/
structure ElInv (mp : EMap K V) (el : entityList K) (ks : List K) : Prop where
  nodup : ks.Nodup
  link : linkedSeg mp none ks none
  headEq : el.head = headD ks none
  tailEq : el.tail = lastD ks none

theorem linkedSeg_cons (mp : EMap K V) (p : Option K) (k : K) (rest : List K)
    (t : Option K) :
    linkedSeg mp p (k :: rest) t ↔
      (∃ e, mapLookup mp k = some e ∧ e.prev = p ∧ e.next = headD rest t) ∧
      linkedSeg mp (some k) rest t := Iff.rfl

theorem headD_cons (k : K) (rest : List K) (t : Option K) :
    headD (k :: rest) t = some k := rfl

theorem lastD_concat (zs : List K) (p : K) (t : Option K) :
    lastD (zs ++ [p]) t = some p := by
  rw [lastD_append]
  rfl

theorem headD_some_mem {ks : List K} {q : K} (h : headD ks none = some q) :
    q ∈ ks := by
  cases ks with
  | nil => exact absurd h (by simp [headD])
  | cons a rest =>
    rw [headD_cons, Option.some.injEq] at h
    exact h ▸ List.mem_cons_self _ _

theorem lastD_some_mem : ∀ {ks : List K} {p : Option K} {q : K},
    ks ≠ [] → lastD ks p = some q → q ∈ ks
  | [], _, _, hne, _ => absurd rfl hne
  | [a], p, q, _, h => by
    rw [show lastD [a] p = some a from rfl, Option.some.injEq] at h
    exact h ▸ List.mem_cons_self _ _
  | a :: b :: rest, _, q, _, h => by
    have h' : lastD (b :: rest) (some a) = some q := h
    exact List.mem_cons_of_mem _ (lastD_some_mem (List.cons_ne_nil _ _) h')

theorem headD_ne_nil_mem {ks : List K} {t : Option K} {q : K}
    (hne : ks ≠ []) (h : headD ks t = some q) : q ∈ ks := by
  cases ks with
  | nil => exact absurd rfl hne
  | cons a rest =>
    rw [headD_cons, Option.some.injEq] at h
    exact h ▸ List.mem_cons_self _ _

theorem removeYourself_eq (mp : EMap K V) (e : K) :
    removeYourself mp e =
      (let mp1 :=
        match optPrev mp e with
        | some p => mapModify mp p (fun x => { x with next := optNext mp e })
        | none => mp
      match optNext mp1 e with
      | some n => mapModify mp1 n (fun x => { x with prev := optPrev mp1 e })
      | none => mp1) := rfl

theorem elRemoveEntity_eq (mp : EMap K V) (el : entityList K) (k : K) :
    elRemoveEntity mp el k =
      (removeYourself mp k,
        let el1 := if el.head = some k
          then { el with head := optNext (removeYourself mp k) k } else el
        if el1.tail = some k
          then { el1 with tail := optPrev (removeYourself mp k) k } else el1) := rfl

theorem insertBefore_spec {mp : EMap K V} {e entity : K} {ee : lruEntity K V}
    (hpe : optPrev mp e = none) (hent : mapLookup mp entity = some ee)
    (hne : entity ≠ e) :
    insertBefore mp e entity =
      mapModify (mapModify mp entity
        (fun x => { x with prev := none, next := some e })) e
        (fun x => { x with prev := some entity }) := by
  delta insertBefore
  dsimp only
  rw [hpe]
  rw [optPrev_some ((mapLookup_mapModify_ne _ _ hne).trans
    (mapLookup_mapModify_self _ hent))]

theorem elSetHead_spec {mp : EMap K V} {el : entityList K} {ks : List K} {k : K}
    {ek : lruEntity K V} (hinv : ElInv mp el ks) (hk : k ∉ ks)
    (hek : mapLookup mp k = some ek) (hnil : ks = [] → ek.next = none) :
    ElInv (elSetHead mp el k).1 (elSetHead mp el k).2 (k :: ks) ∧
    keysOf (elSetHead mp el k).1 = keysOf mp ∧
    ∀ x, valOf (elSetHead mp el k).1 x = valOf mp x := by
  cases ks with
  | nil =>
    have hhead : el.head = none := hinv.headEq
    have hred : elSetHead mp el k =
        (mapModify mp k (fun x => { x with prev := none }),
          { head := some k, tail := some k }) := by
      rw [elSetHead, hhead]
    rw [hred]
    refine ⟨⟨by simp, ⟨⟨{ ek with prev := none },
        mapLookup_mapModify_self _ hek, rfl, ?_⟩, trivial⟩, rfl, rfl⟩,
      keysOf_mapModify mp k _,
      fun x => valOf_mapModify mp k (fun y => { y with prev := none })
        (fun e => rfl) x⟩
    simpa [headD] using hnil rfl
  | cons h0 ks' =>
    have hkh : k ≠ h0 := fun he => hk (he ▸ List.mem_cons_self _ _)
    obtain ⟨⟨eh, heh, hehp, hehn⟩, hrest⟩ := hinv.link
    have hhead : el.head = some h0 := hinv.headEq
    set mp1 := mapModify mp k (fun x => { x with prev := none }) with hmp1
    have hl1k : mapLookup mp1 k = some { ek with prev := none } := by
      rw [hmp1, mapLookup_mapModify_self _ hek]
    have hl1 : ∀ x, x ≠ k → mapLookup mp1 x = mapLookup mp x := fun x hx =>
      mapLookup_mapModify_ne mp _ hx
    have hl1h : mapLookup mp1 h0 = some eh := (hl1 h0 (Ne.symm hkh)).trans heh
    have hph : optPrev mp1 h0 = none := by rw [optPrev_some hl1h, hehp]
    set mp2 := mapModify mp1 k
      (fun x => { x with prev := none, next := some h0 }) with hmp2
    have hl2k : mapLookup mp2 k = some { ek with prev := none, next := some h0 } := by
      rw [hmp2, mapLookup_mapModify_self _ hl1k]
    have hl2 : ∀ x, x ≠ k → mapLookup mp2 x = mapLookup mp1 x := fun x hx =>
      mapLookup_mapModify_ne mp1 _ hx
    set mp3 := mapModify mp2 h0 (fun x => { x with prev := some k }) with hmp3
    have hl3h : mapLookup mp3 h0 = some { eh with prev := some k } := by
      rw [hmp3, mapLookup_mapModify_self _ ((hl2 h0 (Ne.symm hkh)).trans hl1h)]
    have hl3 : ∀ x, x ≠ h0 → mapLookup mp3 x = mapLookup mp2 x := fun x hx =>
      mapLookup_mapModify_ne mp2 _ hx
    have hl3k : mapLookup mp3 k = some { ek with prev := none, next := some h0 } :=
      (hl3 k hkh).trans hl2k
    have hred : elSetHead mp el k = (mp3, { el with head := some k }) := by
      rw [elSetHead, hhead]
      dsimp only
      rw [insertBefore_spec hph hl1k hkh, hmp3, hmp2]
    rw [hred]
    have hother : ∀ x, x ≠ k → x ≠ h0 → mapLookup mp3 x = mapLookup mp x :=
      fun x hx hxh => ((hl3 x hxh).trans (hl2 x hx)).trans (hl1 x hx)
    refine ⟨⟨?_, ?_, rfl, ?_⟩, ?_, ?_⟩
    · exact List.nodup_cons.2 ⟨hk, hinv.nodup⟩
    · refine ⟨⟨{ ek with prev := none, next := some h0 }, hl3k, rfl, rfl⟩,
        ⟨{ eh with prev := some k }, hl3h, rfl, hehn⟩, ?_⟩
      refine linkedSeg_congr (fun x hx => ?_) hrest
      have hxk : x ≠ k := fun he => hk (he ▸ List.mem_cons_of_mem _ hx)
      have hxh : x ≠ h0 := fun he =>
        (List.nodup_cons.1 hinv.nodup).1 (he ▸ hx)
      rw [hother x hxk hxh]
    · rw [show ({ el with head := some k } : entityList K).tail = el.tail from rfl,
        hinv.tailEq]
      rfl
    · rw [hmp3, hmp2, hmp1, keysOf_mapModify, keysOf_mapModify, keysOf_mapModify]
    · intro x
      by_cases hx : x = k
      · subst hx
        simp [valOf, hl3k, hek]
      · by_cases hxh : x = h0
        · subst hxh
          simp [valOf, hl3h, heh]
        · rw [valOf, hother x hx hxh, valOf]

theorem elRemoveEntity_spec {mp : EMap K V} {el : entityList K} {xs ys : List K}
    {k : K} (hinv : ElInv mp el (xs ++ k :: ys)) :
    ElInv (elRemoveEntity mp el k).1 (elRemoveEntity mp el k).2 (xs ++ ys) ∧
    keysOf (elRemoveEntity mp el k).1 = keysOf mp ∧
    (∀ x, valOf (elRemoveEntity mp el k).1 x = valOf mp x) ∧
    mapLookup (elRemoveEntity mp el k).1 k = mapLookup mp k := by
  have hnd := hinv.nodup
  rw [List.nodup_append] at hnd
  obtain ⟨hndxs, hndkys, hdisj⟩ := hnd
  rw [List.nodup_cons] at hndkys
  obtain ⟨hkys, hndys⟩ := hndkys
  have hkxs : k ∉ xs := fun hmem => hdisj hmem (List.mem_cons_self _ _)
  have hlink := hinv.link
  rw [linkedSeg_append, linkedSeg_cons] at hlink
  obtain ⟨hsxs, ⟨ek, hek, hekp, hekn⟩, hsys⟩ := hlink
  rw [headD_cons] at hsxs
  have hheadEq := hinv.headEq
  have htailEq := hinv.tailEq
  rcases List.eq_nil_or_concat xs with rfl | ⟨zs, p, rfl⟩
  · -- the removed key is the head of the list
    have hp : optPrev mp k = none := by
      rw [optPrev_some hek, hekp]
      rfl
    have hh : el.head = some k := by rw [hheadEq]; rfl
    cases ys with
    | nil =>
      have hn : optNext mp k = none := by
        rw [optNext_some hek, hekn]
        rfl
      have hry : removeYourself mp k = mp := by
        rw [removeYourself_eq]
        dsimp only
        rw [hp]
        dsimp only
        rw [hn]
      have ht : el.tail = some k := by rw [htailEq]; rfl
      have hred : elRemoveEntity mp el k = (mp, { head := none, tail := none }) := by
        rw [elRemoveEntity_eq, hry]
        dsimp only
        rw [hh, if_pos rfl]
        dsimp only
        rw [ht, if_pos rfl, hp, hn]
      rw [hred]
      exact ⟨⟨by simp, trivial, rfl, rfl⟩, rfl, fun x => rfl, rfl⟩
    | cons n ys' =>
      rw [linkedSeg_cons] at hsys
      obtain ⟨⟨en, hen, henp, henn⟩, hsys'⟩ := hsys
      have hkn : k ≠ n := fun he => hkys (he ▸ List.mem_cons_self _ _)
      have hnys' : n ∉ ys' := (List.nodup_cons.1 hndys).1
      have hn : optNext mp k = some n := by
        rw [optNext_some hek, hekn]
        rfl
      have hry : removeYourself mp k =
          mapModify mp n (fun x => { x with prev := none }) := by
        rw [removeYourself_eq]
        dsimp only
        rw [hp]
        dsimp only
        rw [hn]
        dsimp only
        rw [hp]
      have htne : el.tail ≠ some k := by
        rw [htailEq]
        intro hcon
        have h' : lastD (n :: ys') (some k) = some k := hcon
        exact hkys (lastD_some_mem (List.cons_ne_nil _ _) h')
      have hl2k : mapLookup (mapModify mp n (fun x => { x with prev := none })) k
          = some ek := (mapLookup_mapModify_ne mp _ hkn).trans hek
      have hnk2 : optNext (mapModify mp n (fun x => { x with prev := none })) k
          = some n := by
        rw [optNext_some hl2k, hekn]
        rfl
      have hred : elRemoveEntity mp el k =
          (mapModify mp n (fun x => { x with prev := none }),
            { head := some n, tail := el.tail }) := by
        rw [elRemoveEntity_eq, hry]
        dsimp only
        rw [hh, if_pos rfl]
        dsimp only
        rw [if_neg htne, hnk2]
      rw [hred]
      refine ⟨⟨hndys, ?_, rfl, ?_⟩, keysOf_mapModify mp n _,
        fun x => valOf_mapModify mp n (fun y => { y with prev := none })
          (fun e => rfl) x,
        (mapLookup_mapModify_ne mp _ hkn).trans rfl⟩
      · rw [show (([] : List K) ++ n :: ys') = n :: ys' from rfl, linkedSeg_cons]
        refine ⟨⟨{ en with prev := none },
          by rw [mapLookup_mapModify_self _ hen], rfl, henn⟩, ?_⟩
        refine linkedSeg_congr (fun x hx => ?_) hsys'
        rw [mapLookup_mapModify_ne mp _ (by rintro rfl; exact hnys' hx)]
      · rw [show (({ head := some n, tail := el.tail } : entityList K)).tail
          = el.tail from rfl, htailEq]
        rfl
  · -- the removed key has a predecessor p
    simp only [List.concat_eq_append] at *
    have hkp : k ≠ p := fun he => hkxs (he ▸ List.mem_append_right _
      (List.mem_cons_self _ _))
    have hxsnd := hndxs
    rw [List.nodup_append] at hxsnd
    obtain ⟨hndzs, _, hdzs⟩ := hxsnd
    have hpzs : p ∉ zs := fun h => hdzs h (List.mem_cons_self _ _)
    rw [linkedSeg_append, linkedSeg_cons] at hsxs
    obtain ⟨hszs, ⟨ep, hep, hepp, hepn⟩, -⟩ := hsxs
    rw [headD_cons] at hszs
    have hp' : optPrev mp k = some p := by
      rw [optPrev_some hek, hekp, lastD_concat]
    have hhne : el.head ≠ some k := by
      rw [hheadEq, headD_append]
      intro hcon
      exact hkxs (headD_ne_nil_mem (by simp) hcon)
    cases ys with
    | nil =>
      have hn : optNext mp k = none := by
        rw [optNext_some hek, hekn]
        rfl
      have hry : removeYourself mp k =
          mapModify mp p (fun x => { x with next := none }) := by
        rw [removeYourself_eq]
        dsimp only
        rw [hp']
        dsimp only
        rw [hn]
        rw [optNext_some ((mapLookup_mapModify_ne mp _ hkp).trans hek), hekn]
        rfl
      have ht : el.tail = some k := by
        rw [htailEq, lastD_append]
        rfl
      have hp2 : optPrev (mapModify mp p (fun x => { x with next := none })) k
          = some p := by
        rw [optPrev_some ((mapLookup_mapModify_ne mp _ hkp).trans hek), hekp,
          lastD_concat]
      have hred : elRemoveEntity mp el k =
          (mapModify mp p (fun x => { x with next := none }),
            { head := el.head, tail := some p }) := by
        rw [elRemoveEntity_eq, hry]
        dsimp only
        rw [if_neg hhne]
        rw [ht, if_pos rfl, hp2]
      rw [hred]
      rw [List.append_nil]
      refine ⟨⟨hndxs, ?_, ?_, ?_⟩, keysOf_mapModify mp p _,
        fun x => valOf_mapModify mp p (fun y => { y with next := none })
          (fun e => rfl) x,
        (mapLookup_mapModify_ne mp _ hkp).trans rfl⟩
      · rw [linkedSeg_append, linkedSeg_cons]
        refine ⟨?_, ⟨{ ep with next := none },
          by rw [mapLookup_mapModify_self _ hep], hepp, rfl⟩, trivial⟩
        refine linkedSeg_congr (fun x hx => ?_) hszs
        rw [mapLookup_mapModify_ne mp _ (by rintro rfl; exact hpzs hx)]
      · rw [show (({ head := el.head, tail := some p } : entityList K)).head
          = el.head from rfl, hheadEq]
        simp only [headD_append, headD_cons]
      · rw [lastD_concat]
    | cons n ys' =>
      rw [linkedSeg_cons] at hsys
      obtain ⟨⟨en, hen, henp, henn⟩, hsys'⟩ := hsys
      have hkn : k ≠ n := fun he => hkys (he ▸ List.mem_cons_self _ _)
      have hnys' : n ∉ ys' := (List.nodup_cons.1 hndys).1
      have hpn : p ≠ n := fun he =>
        hdisj (List.mem_append_right _ (List.mem_cons_self _ _))
          (he ▸ List.mem_cons_of_mem _ (List.mem_cons_self _ _))
      have hn : optNext mp k = some n := by
        rw [optNext_some hek, hekn]
        rfl
      have hry : removeYourself mp k =
          mapModify (mapModify mp p (fun x => { x with next := some n })) n
            (fun x => { x with prev := some p }) := by
        rw [removeYourself_eq]
        dsimp only
        rw [hp']
        dsimp only
        rw [hn]
        rw [optNext_some ((mapLookup_mapModify_ne mp _ hkp).trans hek), hekn]
        dsimp only [headD]
        rw [optPrev_some ((mapLookup_mapModify_ne mp _ hkp).trans hek), hekp,
          lastD_concat]
      have htne : el.tail ≠ some k := by
        rw [htailEq, lastD_append]
        intro hcon
        have h' : lastD (n :: ys') (some k) = some k := hcon
        exact hkys (lastD_some_mem (List.cons_ne_nil _ _) h')
      have hred : elRemoveEntity mp el k =
          (mapModify (mapModify mp p (fun x => { x with next := some n })) n
            (fun x => { x with prev := some p }), el) := by
        rw [elRemoveEntity_eq, hry]
        dsimp only
        rw [if_neg hhne]
        rw [if_neg htne]
      rw [hred]
      have hl1p : mapLookup (mapModify mp p (fun x => { x with next := some n })) p
          = some { ep with next := some n } := by
        rw [mapLookup_mapModify_self _ hep]
      have hl2p : mapLookup (mapModify (mapModify mp p
          (fun x => { x with next := some n })) n (fun x => { x with prev := some p })) p
          = some { ep with next := some n } :=
        (mapLookup_mapModify_ne _ _ hpn).trans hl1p
      have hl1n : mapLookup (mapModify mp p (fun x => { x with next := some n })) n
          = some en := (mapLookup_mapModify_ne mp _ (Ne.symm hpn)).trans hen
      have hl2n : mapLookup (mapModify (mapModify mp p
          (fun x => { x with next := some n })) n (fun x => { x with prev := some p })) n
          = some { en with prev := some p } := by
        rw [mapLookup_mapModify_self _ hl1n]
      have hl2other : ∀ x, x ≠ p → x ≠ n →
          mapLookup (mapModify (mapModify mp p
            (fun x => { x with next := some n })) n
            (fun x => { x with prev := some p })) x = mapLookup mp x :=
        fun x hxp hxn =>
          (mapLookup_mapModify_ne _ _ hxn).trans (mapLookup_mapModify_ne mp _ hxp)
      have hzs_ne_p : ∀ x ∈ zs, x ≠ p := by
        intro x hx he
        subst he
        exact hpzs hx
      have hzs_ne_n : ∀ x ∈ zs, x ≠ n := by
        intro x hx he
        subst he
        exact hdisj (List.mem_append_left _ hx)
          (List.mem_cons_of_mem _ (List.mem_cons_self _ _))
      have hys_ne_p : ∀ x ∈ ys', x ≠ p := by
        intro x hx he
        subst he
        exact hdisj (List.mem_append_right _ (List.mem_cons_self _ _))
          (List.mem_cons_of_mem _ (List.mem_cons_of_mem _ hx))
      have hys_ne_n : ∀ x ∈ ys', x ≠ n := by
        intro x hx he
        subst he
        exact hnys' hx
      refine ⟨⟨?_, ?_, ?_, ?_⟩, ?_, ?_, hl2other k hkp hkn⟩
      · rw [List.nodup_append]
        refine ⟨hndxs, hndys, fun a ha hb => hdisj ha (List.mem_cons_of_mem _ hb)⟩
      · rw [linkedSeg_append, linkedSeg_cons, linkedSeg_append, linkedSeg_cons]
        refine ⟨⟨?_, ⟨{ ep with next := some n }, hl2p, hepp, rfl⟩, trivial⟩,
          ⟨{ en with prev := some p }, hl2n, ?_, henn⟩, ?_⟩
        · refine linkedSeg_congr (fun x hx => ?_) hszs
          rw [hl2other x (hzs_ne_p x hx) (hzs_ne_n x hx)]
        · rw [lastD_concat]
        · refine linkedSeg_congr (fun x hx => ?_) hsys'
          rw [hl2other x (hys_ne_p x hx) (hys_ne_n x hx)]
      · rw [hheadEq]
        simp only [headD_append, headD_cons]
      · rw [htailEq]
        simp only [lastD_append]
        rfl
      · rw [keysOf_mapModify, keysOf_mapModify]
      · intro x
        calc valOf (mapModify (mapModify mp p
              (fun x => { x with next := some n })) n
              (fun x => { x with prev := some p })) x
            = valOf (mapModify mp p (fun x => { x with next := some n })) x :=
              valOf_mapModify _ n (fun y => { y with prev := some p })
                (fun e => rfl) x
          _ = valOf mp x :=
              valOf_mapModify mp p (fun y => { y with next := some n })
                (fun e => rfl) x

theorem linkedSeg_lookup {mp : EMap K V} :
    ∀ {ks : List K} {p t : Option K}, linkedSeg mp p ks t →
    ∀ x ∈ ks, ∃ e, mapLookup mp x = some e
  | [], _, _, _, x, hx => absurd hx (List.not_mem_nil x)
  | a :: rest, _, _, hs, x, hx => by
    obtain ⟨⟨e, he, -, -⟩, hrest⟩ := hs
    rcases List.mem_cons.1 hx with rfl | hx'
    · exact ⟨e, he⟩
    · exact linkedSeg_lookup hrest x hx'

theorem elMoveToHead_spec {mp : EMap K V} {el : entityList K} {xs ys : List K}
    {k : K} (hinv : ElInv mp el (xs ++ k :: ys)) :
    ElInv (elMoveToHead mp el k).1 (elMoveToHead mp el k).2 (k :: (xs ++ ys)) ∧
    keysOf (elMoveToHead mp el k).1 = keysOf mp ∧
    ∀ x, valOf (elMoveToHead mp el k).1 x = valOf mp x := by
  by_cases hhead : el.head = some k
  · have hxs : xs = [] := by
      cases xs with
      | nil => rfl
      | cons a xs' =>
        rw [hinv.headEq, List.cons_append, headD_cons, Option.some.injEq] at hhead
        subst hhead
        have hnd := hinv.nodup
        rw [List.cons_append, List.nodup_cons] at hnd
        exact absurd (List.mem_append_right _ (List.mem_cons_self _ _)) hnd.1
    subst hxs
    have hred : elMoveToHead mp el k = (mp, el) := by
      rw [elMoveToHead, if_pos hhead]
    rw [hred]
    exact ⟨by simpa using hinv, rfl, fun x => rfl⟩
  · have hred : elMoveToHead mp el k =
        elSetHead (elRemoveEntity mp el k).1 (elRemoveEntity mp el k).2 k := by
      rw [elMoveToHead, if_neg hhead]
    rw [hred]
    obtain ⟨hinv2, hkeys2, hval2, hlk2⟩ := elRemoveEntity_spec hinv
    have hnd := hinv.nodup
    rw [List.nodup_append, List.nodup_cons] at hnd
    obtain ⟨-, ⟨hky, -⟩, hdisj⟩ := hnd
    have hkx : k ∉ xs := fun hm => hdisj hm (List.mem_cons_self _ _)
    have hk : k ∉ xs ++ ys := by
      rw [List.mem_append]
      rintro (h | h)
      exacts [hkx h, hky h]
    obtain ⟨ek, hek⟩ := linkedSeg_lookup hinv.link k
      (List.mem_append_right _ (List.mem_cons_self _ _))
    have hxsne : xs ≠ [] := by
      rintro rfl
      exact hhead (by rw [hinv.headEq]; rfl)
    have hnonnil : xs ++ ys ≠ [] := fun hcon =>
      hxsne (List.append_eq_nil.1 hcon).1
    obtain ⟨hinv3, hkeys3, hval3⟩ :=
      elSetHead_spec hinv2 hk (hlk2.trans hek) (fun hcon => absurd hcon hnonnil)
    exact ⟨hinv3, hkeys3.trans hkeys2, fun x => (hval3 x).trans (hval2 x)⟩

/-! ### Cache-level well-formedness -/

/-- Full cache well-formedness relative to a chain ks: the order list is a
well-formed doubly-linked chain and its members are exactly the keys of the
hash index. -/
structure ChainInv (lru : LRU K V) (ks : List K) : Prop where
  elinv : ElInv lru.mp lru.entities ks
  keysNodup : (keysOf lru.mp).Nodup
  perm : List.Perm (keysOf lru.mp) ks

/-- The cache invariant: some chain witnesses well-formedness, and the entry
count respects the capacity (`max limit 0`, which is `limit` for any sane
non-negative limit and 0 for a degenerate one). -/
def Inv (lru : LRU K V) : Prop :=
  ∃ ks, ChainInv lru ks ∧ (ks.length : Int) ≤ max lru.limit 0

theorem lookup_none_of_chain {lru : LRU K V} {ks : List K} {x : K}
    (hinv : ChainInv lru ks) : mapLookup lru.mp x = none ↔ x ∉ ks := by
  rw [mapLookup_eq_none_iff]
  exact not_congr hinv.perm.mem_iff

theorem evictEntity_spec {lru : LRU K V} {xs ys : List K} {k : K}
    (hinv : ChainInv lru (xs ++ k :: ys)) :
    ChainInv (evictEntity lru k) (xs ++ ys) ∧
    (evictEntity lru k).limit = lru.limit ∧
    mapLookup (evictEntity lru k).mp k = none ∧
    (∀ x, x ≠ k → valOf (evictEntity lru k).mp x = valOf lru.mp x) ∧
    (evictEntity lru k).mp.length + 1 = lru.mp.length := by
  obtain ⟨hel2, hkeys2, hval2, hlk2⟩ := elRemoveEntity_spec hinv.elinv
  have hnd := hinv.elinv.nodup
  rw [List.nodup_append, List.nodup_cons] at hnd
  obtain ⟨-, ⟨hky, -⟩, hdisj⟩ := hnd
  have hkx : k ∉ xs := fun hm => hdisj hm (List.mem_cons_self _ _)
  have hk : k ∉ xs ++ ys := by
    rw [List.mem_append]
    rintro (h | h)
    exacts [hkx h, hky h]
  have hred : evictEntity lru k = { lru with
      mp := mapDelete (mapModify (elRemoveEntity lru.mp lru.entities k).1 k
        (fun x => { x with prev := none, next := none })) k,
      entities := (elRemoveEntity lru.mp lru.entities k).2 } := rfl
  rw [hred]
  have hkeysM2 : keysOf (mapModify (elRemoveEntity lru.mp lru.entities k).1 k
      (fun x => { x with prev := none, next := none })) = keysOf lru.mp := by
    rw [keysOf_mapModify, hkeys2]
  have hkeysM3 : keysOf (mapDelete (mapModify (elRemoveEntity lru.mp lru.entities k).1 k
      (fun x => { x with prev := none, next := none })) k)
      = (keysOf lru.mp).erase k := by
    rw [keysOf_mapDelete, hkeysM2]
  have hlkM3 : ∀ x, x ≠ k →
      mapLookup (mapDelete (mapModify (elRemoveEntity lru.mp lru.entities k).1 k
        (fun x => { x with prev := none, next := none })) k) x
      = mapLookup (elRemoveEntity lru.mp lru.entities k).1 x := fun x hx => by
    rw [mapLookup_mapDelete_ne _ hx, mapLookup_mapModify_ne _ _ hx]
  have hkm : k ∈ keysOf lru.mp :=
    hinv.perm.mem_iff.2 (List.mem_append_right _ (List.mem_cons_self _ _))
  refine ⟨⟨⟨hel2.nodup, ?_, hel2.headEq, hel2.tailEq⟩, ?_, ?_⟩, rfl, ?_, ?_, ?_⟩
  · refine linkedSeg_congr (fun x hx => ?_) hel2.link
    rw [hlkM3 x (fun he => hk (he ▸ hx))]
  · rw [hkeysM3]
    exact hinv.keysNodup.erase k
  · rw [hkeysM3]
    have hperm := hinv.perm.erase k
    rwa [List.erase_append_right _ hkx, List.erase_cons_head] at hperm
  · apply mapLookup_mapDelete_self
    rw [hkeysM2]
    exact hinv.keysNodup
  · intro x hx
    rw [valOf, hlkM3 x hx, ← valOf, hval2 x]
  · have h2 : ((keysOf lru.mp).erase k).length = (keysOf lru.mp).length - 1 :=
      List.length_erase_of_mem hkm
    have h3 : 0 < (keysOf lru.mp).length :=
      List.length_pos.2 (List.ne_nil_of_mem hkm)
    have h4 := keysOf_length (mapDelete (mapModify
      (elRemoveEntity lru.mp lru.entities k).1 k
      (fun x => { x with prev := none, next := none })) k)
    have h5 := keysOf_length lru.mp
    rw [hkeysM3] at h4
    dsimp only
    omega

theorem putEntity_spec {lru : LRU K V} {ks : List K} {k : K} {e0 : lruEntity K V}
    (hinv : ChainInv lru ks) (habs : mapLookup lru.mp k = none)
    (hn0 : e0.next = none) :
    ChainInv (putEntity lru k e0)
      (if ((lru.mp.length + 1 : Nat) : Int) ≤ lru.limit then k :: ks
        else (k :: ks).dropLast) ∧
    (putEntity lru k e0).limit = lru.limit ∧
    (∀ x, x ≠ k →
      x ∈ (if ((lru.mp.length + 1 : Nat) : Int) ≤ lru.limit then k :: ks
        else (k :: ks).dropLast) →
      valOf (putEntity lru k e0).mp x = valOf lru.mp x) ∧
    (k ∈ (if ((lru.mp.length + 1 : Nat) : Int) ≤ lru.limit then k :: ks
        else (k :: ks).dropLast) →
      valOf (putEntity lru k e0).mp k = some e0.value) := by
  have hk : k ∉ ks := fun hm => (mapLookup_eq_none_iff lru.mp k).1 habs
    (hinv.perm.mem_iff.2 hm)
  have hel1 : ElInv (mapSet lru.mp k e0) lru.entities ks :=
    ⟨hinv.elinv.nodup,
      linkedSeg_congr (fun x hx => by
        rw [mapLookup_mapSet_ne _ _ (by rintro rfl; exact hk hx)]) hinv.elinv.link,
      hinv.elinv.headEq, hinv.elinv.tailEq⟩
  have hlk1 : mapLookup (mapSet lru.mp k e0) k = some e0 := mapLookup_mapSet_self _ _ _
  obtain ⟨hinv3, hkeys3, hval3⟩ := elSetHead_spec hel1 hk hlk1 (fun _ => hn0)
  have hkeysr : keysOf (elSetHead (mapSet lru.mp k e0) lru.entities k).1
      = keysOf lru.mp ++ [k] := by
    rw [hkeys3, keysOf_mapSet_absent _ _ habs]
  have hlen : (elSetHead (mapSet lru.mp k e0) lru.entities k).1.length
      = lru.mp.length + 1 := by
    rw [← keysOf_length, hkeysr, List.length_append, keysOf_length]
    rfl
  have hchain1 : ChainInv { lru with
      mp := (elSetHead (mapSet lru.mp k e0) lru.entities k).1,
      entities := (elSetHead (mapSet lru.mp k e0) lru.entities k).2 } (k :: ks) := by
    refine ⟨hinv3, ?_, ?_⟩
    · rw [hkeysr, List.nodup_append]
      refine ⟨hinv.keysNodup, List.nodup_singleton k, ?_⟩
      intro a ha hb
      rw [List.mem_singleton] at hb
      subst hb
      exact (mapLookup_eq_none_iff lru.mp a).1 habs ha
    · rw [hkeysr]
      exact (List.perm_append_singleton k (keysOf lru.mp)).trans (hinv.perm.cons k)
  have hval1 : valOf (elSetHead (mapSet lru.mp k e0) lru.entities k).1 k
      = some e0.value := by
    rw [hval3 k, valOf, hlk1]
    rfl
  have hvalo : ∀ x, x ≠ k →
      valOf (elSetHead (mapSet lru.mp k e0) lru.entities k).1 x = valOf lru.mp x :=
    fun x hx => by
      rw [hval3 x, valOf, mapLookup_mapSet_ne _ _ hx, valOf]
  by_cases hcase : ((lru.mp.length + 1 : Nat) : Int) ≤ lru.limit
  · rw [if_pos hcase]
    have hred : putEntity lru k e0 = { lru with
        mp := (elSetHead (mapSet lru.mp k e0) lru.entities k).1,
        entities := (elSetHead (mapSet lru.mp k e0) lru.entities k).2 } := by
      delta putEntity
      dsimp only
      rw [hlen, if_neg (not_lt.2 hcase)]
    rw [hred]
    exact ⟨hchain1, rfl, fun x hx _ => hvalo x hx, fun _ => hval1⟩
  · rw [if_neg hcase]
    rcases List.eq_nil_or_concat ks with rfl | ⟨qs, q, rfl⟩
    · -- inserting into an empty over-limit cache: the new entry evicts itself
      have htail : (elSetHead (mapSet lru.mp k e0) lru.entities k).2.tail
          = some k := by
        rw [hinv3.tailEq]
        rfl
      have hred : putEntity lru k e0 = evictEntity { lru with
          mp := (elSetHead (mapSet lru.mp k e0) lru.entities k).1,
          entities := (elSetHead (mapSet lru.mp k e0) lru.entities k).2 } k := by
        delta putEntity
        dsimp only
        rw [hlen, if_pos (not_le.1 hcase), htail]
      rw [hred]
      have hch : ChainInv { lru with
          mp := (elSetHead (mapSet lru.mp k e0) lru.entities k).1,
          entities := (elSetHead (mapSet lru.mp k e0) lru.entities k).2 }
          (([] : List K) ++ k :: []) := hchain1
      obtain ⟨hc, hlim, -, -, -⟩ := evictEntity_spec hch
      refine ⟨by simpa using hc, hlim, ?_, ?_⟩
      · intro x hx hmem
        simp at hmem
      · intro hmem
        simp at hmem
    · -- evict the old tail q
      simp only [List.concat_eq_append] at *
      have htail : (elSetHead (mapSet lru.mp k e0) lru.entities k).2.tail
          = some q := by
        rw [hinv3.tailEq, show (k :: (qs ++ [q])) = (k :: qs) ++ [q] from rfl,
          lastD_concat]
      have hred : putEntity lru k e0 = evictEntity { lru with
          mp := (elSetHead (mapSet lru.mp k e0) lru.entities k).1,
          entities := (elSetHead (mapSet lru.mp k e0) lru.entities k).2 } q := by
        delta putEntity
        dsimp only
        rw [hlen, if_pos (not_le.1 hcase), htail]
      rw [hred]
      have hch : ChainInv { lru with
          mp := (elSetHead (mapSet lru.mp k e0) lru.entities k).1,
          entities := (elSetHead (mapSet lru.mp k e0) lru.entities k).2 }
          ((k :: qs) ++ q :: []) := by
        rw [show (k :: qs) ++ q :: [] = k :: (qs ++ [q]) from rfl]
        exact hchain1
      obtain ⟨hc, hlim, -, hvale, -⟩ := evictEntity_spec hch
      have hkq : k ≠ q := fun he => hk (he ▸ List.mem_append_right _
        (List.mem_cons_self _ _))
      have hqqs : q ∉ qs := by
        have := hchain1.elinv.nodup
        rw [show (k :: (qs ++ [q])) = (k :: qs) ++ [q] from rfl,
          List.nodup_append] at this
        exact fun hm => this.2.2 (List.mem_cons_of_mem _ hm)
          (List.mem_cons_self _ _)
      have hdrop : (k :: (qs ++ [q])).dropLast = k :: qs := by
        rw [show (k :: (qs ++ [q])) = (k :: qs) ++ [q] from rfl,
          List.dropLast_concat]
      rw [hdrop]
      refine ⟨by simpa using hc, hlim, ?_, ?_⟩
      · intro x hx hmem
        have hxq : x ≠ q := by
          rintro rfl
          rcases List.mem_cons.1 hmem with he | hm
          · exact hkq he.symm
          · exact hqqs hm
        rw [hvale x hxq, hvalo x hx]
      · intro _
        rw [hvale k hkq, hval1]

/-! ### Operation-level characterisations -/

theorem chainInv_decomp {lru : LRU K V} {ks : List K} {k : K} {e : lruEntity K V}
    (hinv : ChainInv lru ks) (h : mapLookup lru.mp k = some e) :
    ∃ xs ys, ks = xs ++ k :: ys := by
  have hkm : k ∈ keysOf lru.mp := by
    by_contra hm
    rw [← mapLookup_eq_none_iff] at hm
    rw [hm] at h
    exact absurd h (by simp)
  exact List.append_of_mem (hinv.perm.mem_iff.1 hkm)

theorem put_absent_eq {lru : LRU K V} {k : K} (v : V)
    (habs : mapLookup lru.mp k = none) :
    put lru k v = putEntity lru k { value := v, prev := none, next := none } := by
  delta put
  dsimp only
  rw [habs]

theorem put_absent_spec {lru : LRU K V} {ks : List K} {k : K} (v : V)
    (hinv : ChainInv lru ks) (habs : mapLookup lru.mp k = none) :
    ChainInv (put lru k v)
      (if ((lru.mp.length + 1 : Nat) : Int) ≤ lru.limit then k :: ks
        else (k :: ks).dropLast) ∧
    (put lru k v).limit = lru.limit ∧
    (∀ x, x ≠ k →
      x ∈ (if ((lru.mp.length + 1 : Nat) : Int) ≤ lru.limit then k :: ks
        else (k :: ks).dropLast) →
      valOf (put lru k v).mp x = valOf lru.mp x) ∧
    (k ∈ (if ((lru.mp.length + 1 : Nat) : Int) ≤ lru.limit then k :: ks
        else (k :: ks).dropLast) →
      valOf (put lru k v).mp k = some v) := by
  rw [put_absent_eq v habs]
  exact putEntity_spec hinv habs rfl

theorem put_present_spec {lru : LRU K V} {xs ys : List K} {k : K}
    {e : lruEntity K V} (v : V)
    (hinv : ChainInv lru (xs ++ k :: ys)) (hpres : mapLookup lru.mp k = some e) :
    ChainInv (put lru k v) (k :: (xs ++ ys)) ∧
    (put lru k v).limit = lru.limit ∧
    (put lru k v).mp.length = lru.mp.length ∧
    valOf (put lru k v).mp k = some v ∧
    (∀ x, x ≠ k → valOf (put lru k v).mp x = valOf lru.mp x) := by
  have hred : put lru k v = { lru with
      mp := (elMoveToHead (mapSet lru.mp k { e with value := v }) lru.entities k).1,
      entities := (elMoveToHead (mapSet lru.mp k { e with value := v })
        lru.entities k).2 } := by
    delta put
    dsimp only
    rw [hpres]
  rw [hred]
  have hel1 : ElInv (mapSet lru.mp k { e with value := v }) lru.entities
      (xs ++ k :: ys) := by
    refine ⟨hinv.elinv.nodup, ?_, hinv.elinv.headEq, hinv.elinv.tailEq⟩
    refine linkedSeg_congr (fun x hx => ?_) hinv.elinv.link
    by_cases hxk : x = k
    · subst hxk
      rw [mapLookup_mapSet_self, hpres]
      rfl
    · rw [mapLookup_mapSet_ne _ _ hxk]
  obtain ⟨hinv2, hkeys2, hval2⟩ := elMoveToHead_spec hel1
  have hkeq : keysOf (elMoveToHead (mapSet lru.mp k { e with value := v })
      lru.entities k).1 = keysOf lru.mp := by
    rw [hkeys2, keysOf_mapSet_present _ _ (by simp [hpres])]
  refine ⟨⟨hinv2, ?_, ?_⟩, rfl, ?_, ?_, ?_⟩
  · rw [hkeq]
    exact hinv.keysNodup
  · rw [hkeq]
    exact hinv.perm.trans List.perm_middle
  · rw [← keysOf_length, hkeq, keysOf_length]
  · rw [hval2 k, valOf, mapLookup_mapSet_self]
    rfl
  · intro x hx
    rw [hval2 x, valOf, mapLookup_mapSet_ne _ _ hx, valOf]

theorem putIfAbsent_absent_eq {lru : LRU K V} {k : K} (v : V)
    (habs : mapLookup lru.mp k = none) :
    putIfAbsent lru k v = (true, v, put lru k v) := by
  delta putIfAbsent
  rw [habs, put_absent_eq v habs]

theorem putIfAbsent_present_eq {lru : LRU K V} {k : K} {e : lruEntity K V} (v : V)
    (hpres : mapLookup lru.mp k = some e) :
    putIfAbsent lru k v = (false, e.value, lru) := by
  delta putIfAbsent
  rw [hpres]

theorem get_miss [Inhabited V] {lru : LRU K V} {k : K}
    (habs : mapLookup lru.mp k = none) : get lru k = (false, default, lru) := by
  delta get
  dsimp only
  rw [habs]

theorem get_spec [Inhabited V] {lru : LRU K V} {xs ys : List K} {k : K}
    {e : lruEntity K V}
    (hinv : ChainInv lru (xs ++ k :: ys)) (hpres : mapLookup lru.mp k = some e) :
    (get lru k).1 = true ∧ (get lru k).2.1 = e.value ∧
    ChainInv (get lru k).2.2 (k :: (xs ++ ys)) ∧
    (get lru k).2.2.limit = lru.limit ∧
    (get lru k).2.2.mp.length = lru.mp.length ∧
    (∀ x, valOf (get lru k).2.2.mp x = valOf lru.mp x) := by
  have hred : get lru k = (true, e.value, { lru with
      mp := (elMoveToHead lru.mp lru.entities k).1,
      entities := (elMoveToHead lru.mp lru.entities k).2 }) := by
    delta get
    dsimp only
    rw [hpres]
  rw [hred]
  obtain ⟨hinv2, hkeys2, hval2⟩ := elMoveToHead_spec hinv.elinv
  refine ⟨rfl, rfl, ⟨hinv2, ?_, ?_⟩, rfl, ?_, hval2⟩
  · rw [hkeys2]
    exact hinv.keysNodup
  · rw [hkeys2]
    exact hinv.perm.trans List.perm_middle
  · rw [← keysOf_length, hkeys2, keysOf_length]

theorem get_head_noop [Inhabited V] {lru : LRU K V} {k : K} {e : lruEntity K V}
    (hpres : mapLookup lru.mp k = some e) (hhead : lru.entities.head = some k) :
    get lru k = (true, e.value, lru) := by
  delta get
  dsimp only
  rw [hpres, elMoveToHead, if_pos hhead]

theorem evict_miss [Inhabited V] {lru : LRU K V} {k : K}
    (habs : mapLookup lru.mp k = none) : evict lru k = (false, default, lru) := by
  delta evict
  rw [habs]

theorem evict_hit_eq [Inhabited V] {lru : LRU K V} {k : K} {e : lruEntity K V}
    (hpres : mapLookup lru.mp k = some e) :
    evict lru k = (true, e.value, evictEntity lru k) := by
  delta evict
  rw [hpres]

/-! ### The head-to-tail walk -/

theorem walkFrom_linked {mp : EMap K V} :
    ∀ {ks : List K} {p : Option K}, linkedSeg mp p ks none →
      walkFrom mp (headD ks none) ks.length = ks
  | [], _, _ => rfl
  | a :: rest, p, hs => by
    obtain ⟨⟨e, he, -, hn⟩, hrest⟩ := hs
    rw [headD_cons, show (a :: rest).length = rest.length + 1 from rfl]
    simp only [walkFrom]
    rw [optNext_some he, hn]
    rw [show headD rest none = headD rest none from rfl]
    rw [walkFrom_linked hrest]

theorem walk_of_chain {lru : LRU K V} {ks : List K} (hinv : ChainInv lru ks) :
    walkKeys lru = ks := by
  rw [walkKeys, hinv.elinv.headEq]
  have hlen : lru.mp.length = ks.length := by
    rw [← keysOf_length]
    exact hinv.perm.length_eq
  rw [hlen]
  exact walkFrom_linked hinv.elinv.link

theorem size_of_chain {lru : LRU K V} {ks : List K} (hinv : ChainInv lru ks) :
    size lru = ks.length := by
  rw [size, ← keysOf_length]
  exact hinv.perm.length_eq

/-! ### Invariant preservation -/

theorem inv_new (limit : Int) : Inv (NewLRU K V limit) :=
  ⟨[], ⟨⟨List.nodup_nil, trivial, rfl, rfl⟩, List.nodup_nil, List.Perm.refl _⟩,
    by simpa using le_max_right limit 0⟩

theorem inv_put {lru : LRU K V} (k : K) (v : V) (hinv : Inv lru) :
    Inv (put lru k v) := by
  obtain ⟨ks, hchain, hcap⟩ := hinv
  have hm : lru.mp.length = ks.length := by
    rw [← keysOf_length]
    exact hchain.perm.length_eq
  cases hl : mapLookup lru.mp k with
  | none =>
    obtain ⟨hc, hlim, -, -⟩ := put_absent_spec v hchain hl
    refine ⟨_, hc, ?_⟩
    rw [hlim]
    by_cases hcase : ((lru.mp.length + 1 : Nat) : Int) ≤ lru.limit
    · rw [if_pos hcase] at *
      rw [hm] at hcase
      refine le_trans ?_ (le_max_left lru.limit 0)
      simpa using hcase
    · rw [if_neg hcase] at *
      have hdl : (k :: ks).dropLast.length = ks.length := by
        rw [List.length_dropLast, List.length_cons]
        omega
      rw [show (((k :: ks).dropLast.length : Nat) : Int) = ((ks.length : Nat) : Int)
        from by rw [hdl]]
      exact hcap
  | some e =>
    obtain ⟨xs, ys, rfl⟩ := chainInv_decomp hchain hl
    obtain ⟨hc, hlim, -, -, -⟩ := put_present_spec v hchain hl
    refine ⟨_, hc, ?_⟩
    rw [hlim]
    have hleneq : (k :: (xs ++ ys)).length = (xs ++ k :: ys).length := by
      simp only [List.length_cons, List.length_append]
      omega
    rw [show (((k :: (xs ++ ys)).length : Nat) : Int)
      = (((xs ++ k :: ys).length : Nat) : Int) from by rw [hleneq]]
    exact hcap

theorem inv_putIfAbsent {lru : LRU K V} (k : K) (v : V) (hinv : Inv lru) :
    Inv (putIfAbsent lru k v).2.2 := by
  cases hl : mapLookup lru.mp k with
  | none =>
    rw [putIfAbsent_absent_eq v hl]
    exact inv_put k v hinv
  | some e =>
    rw [putIfAbsent_present_eq v hl]
    exact hinv

theorem inv_get [Inhabited V] {lru : LRU K V} (k : K) (hinv : Inv lru) :
    Inv (get lru k).2.2 := by
  obtain ⟨ks, hchain, hcap⟩ := hinv
  cases hl : mapLookup lru.mp k with
  | none =>
    rw [get_miss hl]
    exact ⟨ks, hchain, hcap⟩
  | some e =>
    obtain ⟨xs, ys, rfl⟩ := chainInv_decomp hchain hl
    obtain ⟨-, -, hc, hlim, -, -⟩ := get_spec hchain hl
    refine ⟨_, hc, ?_⟩
    rw [hlim]
    have hleneq : (k :: (xs ++ ys)).length = (xs ++ k :: ys).length := by
      simp only [List.length_cons, List.length_append]
      omega
    rw [show (((k :: (xs ++ ys)).length : Nat) : Int)
      = (((xs ++ k :: ys).length : Nat) : Int) from by rw [hleneq]]
    exact hcap

theorem inv_evict [Inhabited V] {lru : LRU K V} (k : K) (hinv : Inv lru) :
    Inv (evict lru k).2.2 := by
  obtain ⟨ks, hchain, hcap⟩ := hinv
  cases hl : mapLookup lru.mp k with
  | none =>
    rw [evict_miss hl]
    exact ⟨ks, hchain, hcap⟩
  | some e =>
    obtain ⟨xs, ys, rfl⟩ := chainInv_decomp hchain hl
    rw [evict_hit_eq hl]
    obtain ⟨hc, hlim, -, -, -⟩ := evictEntity_spec hchain
    refine ⟨_, hc, ?_⟩
    rw [show (evictEntity lru k).limit = lru.limit from hlim]
    refine le_trans ?_ hcap
    have : (xs ++ ys).length ≤ (xs ++ k :: ys).length := by
      simp only [List.length_cons, List.length_append]
      omega
    exact_mod_cast this

theorem inv_clear {lru : LRU K V} : Inv (clear lru) :=
  ⟨[], ⟨⟨List.nodup_nil, trivial, rfl, rfl⟩, List.nodup_nil, List.Perm.refl _⟩,
    by simpa using le_max_right lru.limit 0⟩

/-! ### Reachability and operation sequences -/

theorem limit_evictEntity (lru : LRU K V) (k : K) :
    (evictEntity lru k).limit = lru.limit := rfl

theorem limit_putEntity (lru : LRU K V) (k : K) (e : lruEntity K V) :
    (putEntity lru k e).limit = lru.limit := by
  delta putEntity
  dsimp only
  split
  · split
    · exact rfl
    · exact rfl
  · exact rfl

theorem limit_put (lru : LRU K V) (k : K) (v : V) :
    (put lru k v).limit = lru.limit := by
  delta put
  split
  · exact limit_putEntity lru k _
  · exact rfl

theorem limit_putIfAbsent (lru : LRU K V) (k : K) (v : V) :
    (putIfAbsent lru k v).2.2.limit = lru.limit := by
  delta putIfAbsent
  split
  · exact limit_putEntity lru k _
  · exact rfl

theorem limit_get [Inhabited V] (lru : LRU K V) (k : K) :
    (get lru k).2.2.limit = lru.limit := by
  delta get
  split
  · exact rfl
  · exact rfl

theorem limit_evict [Inhabited V] (lru : LRU K V) (k : K) :
    (evict lru k).2.2.limit = lru.limit := by
  delta evict
  split
  · exact rfl
  · exact rfl

theorem limit_clear (lru : LRU K V) : (clear lru).limit = lru.limit := rfl

/-- All cache states producible by the public API starting from NewLRU. -/
inductive Reachable [Inhabited V] : LRU K V → Prop where
  | rnew (limit : Int) : Reachable (NewLRU K V limit)
  | rput {lru : LRU K V} (k : K) (v : V) :
      Reachable lru → Reachable (put lru k v)
  | rputIfAbsent {lru : LRU K V} (k : K) (v : V) :
      Reachable lru → Reachable (putIfAbsent lru k v).2.2
  | rget {lru : LRU K V} (k : K) :
      Reachable lru → Reachable (get lru k).2.2
  | revict {lru : LRU K V} (k : K) :
      Reachable lru → Reachable (evict lru k).2.2
  | rclear {lru : LRU K V} : Reachable lru → Reachable (clear lru)

theorem inv_reachable [Inhabited V] {lru : LRU K V} (h : Reachable lru) :
    Inv lru := by
  induction h with
  | rnew limit => exact inv_new limit
  | rput k v _ ih => exact inv_put k v ih
  | rputIfAbsent k v _ ih => exact inv_putIfAbsent k v ih
  | rget k _ ih => exact inv_get k ih
  | revict k _ ih => exact inv_evict k ih
  | rclear _ _ => exact inv_clear

/-- A Put or PutIfAbsent call, for capacity statements. -/
inductive POp (K V : Type) where
  | pput (k : K) (v : V)
  | pifAbsent (k : K) (v : V)

def applyPOp (lru : LRU K V) : POp K V → LRU K V
  | .pput k v => put lru k v
  | .pifAbsent k v => (putIfAbsent lru k v).2.2

def applyPOps (lru : LRU K V) (ops : List (POp K V)) : LRU K V :=
  ops.foldl applyPOp lru

theorem inv_applyPOps {lru : LRU K V} (ops : List (POp K V)) (hinv : Inv lru) :
    Inv (applyPOps lru ops) := by
  induction ops generalizing lru with
  | nil => exact hinv
  | cons op rest ih =>
    show Inv (applyPOps (applyPOp lru op) rest)
    refine ih ?_
    cases op with
    | pput k v => exact inv_put k v hinv
    | pifAbsent k v => exact inv_putIfAbsent k v hinv

theorem limit_applyPOps (lru : LRU K V) (ops : List (POp K V)) :
    (applyPOps lru ops).limit = lru.limit := by
  induction ops generalizing lru with
  | nil => rfl
  | cons op rest ih =>
    show (applyPOps (applyPOp lru op) rest).limit = lru.limit
    rw [ih]
    cases op with
    | pput k v => exact limit_put lru k v
    | pifAbsent k v => exact limit_putIfAbsent lru k v

theorem size_le_of_inv {lru : LRU K V} (hinv : Inv lru) (hlim : 0 ≤ lru.limit) :
    (size lru : Int) ≤ lru.limit := by
  obtain ⟨ks, hchain, hcap⟩ := hinv
  rw [size_of_chain hchain]
  rwa [max_eq_left hlim] at hcap

/-- Any one call of the public mutating/reading API, for whole-API statements. -/
inductive CacheOp (K V : Type) where
  | cput (k : K) (v : V)
  | cputIfAbsent (k : K) (v : V)
  | cget (k : K)
  | cevict (k : K)
  | cclear

def applyOp [Inhabited V] (lru : LRU K V) : CacheOp K V → LRU K V
  | .cput k v => put lru k v
  | .cputIfAbsent k v => (putIfAbsent lru k v).2.2
  | .cget k => (get lru k).2.2
  | .cevict k => (evict lru k).2.2
  | .cclear => clear lru

def applyOps [Inhabited V] (lru : LRU K V) (ops : List (CacheOp K V)) : LRU K V :=
  ops.foldl applyOp lru

theorem state_eq_new_of_chain_nil {lru : LRU K V} {limit : Int}
    (hc : ChainInv lru []) (hlim : lru.limit = limit) :
    lru = NewLRU K V limit := by
  have hkeys : keysOf lru.mp = [] := hc.perm.eq_nil
  have hh := hc.elinv.headEq
  have ht := hc.elinv.tailEq
  obtain ⟨mp0, ⟨h0, t0⟩, l0⟩ := lru
  rw [keysOf, List.map_eq_nil_iff] at hkeys
  dsimp only at hh ht hlim
  subst hkeys hh ht hlim
  rfl

theorem chain_new (limit : Int) : ChainInv (NewLRU K V limit) [] :=
  ⟨⟨List.nodup_nil, trivial, rfl, rfl⟩, List.nodup_nil, List.Perm.refl _⟩

theorem applyOp_new_nonpos [Inhabited V] {limit : Int} (hlim : limit ≤ 0)
    (op : CacheOp K V) : applyOp (NewLRU K V limit) op = NewLRU K V limit := by
  have habs0 : ∀ k : K, mapLookup (NewLRU K V limit).mp k = none := fun k => rfl
  cases op with
  | cput k v =>
    obtain ⟨hc, hlimq, -, -⟩ := put_absent_spec v (chain_new limit) (habs0 k)
    have hcond : ¬ ((((NewLRU K V limit).mp.length + 1 : Nat) : Int)
        ≤ (NewLRU K V limit).limit) := by
      simp only [NewLRU, List.length_nil]
      intro hcon
      omega
    rw [if_neg hcond] at hc
    exact state_eq_new_of_chain_nil (by simpa using hc) hlimq
  | cputIfAbsent k v =>
    show (putIfAbsent (NewLRU K V limit) k v).2.2 = NewLRU K V limit
    rw [putIfAbsent_absent_eq v (habs0 k)]
    obtain ⟨hc, hlimq, -, -⟩ := put_absent_spec v (chain_new limit) (habs0 k)
    have hcond : ¬ ((((NewLRU K V limit).mp.length + 1 : Nat) : Int)
        ≤ (NewLRU K V limit).limit) := by
      simp only [NewLRU, List.length_nil]
      intro hcon
      omega
    rw [if_neg hcond] at hc
    exact state_eq_new_of_chain_nil (by simpa using hc) hlimq
  | cget k =>
    show (get (NewLRU K V limit) k).2.2 = NewLRU K V limit
    rw [get_miss (habs0 k)]
  | cevict k =>
    show (evict (NewLRU K V limit) k).2.2 = NewLRU K V limit
    rw [evict_miss (habs0 k)]
  | cclear => rfl

theorem applyOps_new_nonpos [Inhabited V] {limit : Int} (hlim : limit ≤ 0)
    (ops : List (CacheOp K V)) :
    applyOps (NewLRU K V limit) ops = NewLRU K V limit := by
  induction ops with
  | nil => rfl
  | cons op rest ih =>
    show applyOps (applyOp (NewLRU K V limit) op) rest = NewLRU K V limit
    rw [applyOp_new_nonpos hlim op]
    exact ih

/-! ### Scenario helpers -/

theorem mplen_of_chain {lru : LRU K V} {ks : List K} (hc : ChainInv lru ks) :
    lru.mp.length = ks.length := size_of_chain hc

theorem not_mem_of_nodup_middle {xs ys : List K} {k : K}
    (h : (xs ++ k :: ys).Nodup) : k ∉ xs ∧ k ∉ ys := by
  rw [List.nodup_append, List.nodup_cons] at h
  obtain ⟨-, ⟨hky, -⟩, hdisj⟩ := h
  exact ⟨fun hm => hdisj hm (List.mem_cons_self _ _), hky⟩

theorem erase_middle {xs ys : List K} {k : K} (h : k ∉ xs) :
    (xs ++ k :: ys).erase k = xs ++ ys := by
  rw [List.erase_append_right _ h, List.erase_cons_head]

theorem lookup_some_of_chain {lru : LRU K V} {ks : List K} {x : K}
    (hinv : ChainInv lru ks) (hx : x ∈ ks) :
    ∃ e, mapLookup lru.mp x = some e := by
  cases hl : mapLookup lru.mp x with
  | some e => exact ⟨e, rfl⟩
  | none => exact absurd ((lookup_none_of_chain hinv).1 hl) (not_not.2 hx)

theorem put_fresh_step {lru : LRU K V} {ks : List K} (k : K) (v : V)
    (hchain : ChainInv lru ks) (hk : k ∉ ks)
    (hfit : ((ks.length + 1 : Nat) : Int) ≤ lru.limit) :
    ChainInv (put lru k v) (k :: ks) ∧ (put lru k v).limit = lru.limit ∧
    valOf (put lru k v).mp k = some v ∧
    (∀ x, x ≠ k → x ∈ k :: ks → valOf (put lru k v).mp x = valOf lru.mp x) := by
  have habs := (lookup_none_of_chain hchain).2 hk
  obtain ⟨hc, hlim, hvo, hvk⟩ := put_absent_spec v hchain habs
  rw [mplen_of_chain hchain, if_pos hfit] at hc hvo hvk
  exact ⟨hc, hlim, hvk (List.mem_cons_self _ _), hvo⟩

theorem put_evict_step {lru : LRU K V} {ks : List K} (k : K) (v : V)
    (hchain : ChainInv lru ks) (hk : k ∉ ks)
    (hover : ¬ ((ks.length + 1 : Nat) : Int) ≤ lru.limit) :
    ChainInv (put lru k v) (k :: ks).dropLast ∧
    (put lru k v).limit = lru.limit ∧
    (∀ x, x ≠ k → x ∈ (k :: ks).dropLast →
      valOf (put lru k v).mp x = valOf lru.mp x) ∧
    (k ∈ (k :: ks).dropLast → valOf (put lru k v).mp k = some v) := by
  have habs := (lookup_none_of_chain hchain).2 hk
  obtain ⟨hc, hlim, hvo, hvk⟩ := put_absent_spec v hchain habs
  rw [mplen_of_chain hchain, if_neg hover] at hc hvo hvk
  exact ⟨hc, hlim, hvo, hvk⟩

theorem get_promote_step [Inhabited V] {lru : LRU K V} {xs ys : List K} {k : K}
    (hchain : ChainInv lru (xs ++ k :: ys)) :
    ChainInv (get lru k).2.2 (k :: (xs ++ ys)) ∧
    (get lru k).2.2.limit = lru.limit ∧
    (∀ x, valOf (get lru k).2.2.mp x = valOf lru.mp x) := by
  obtain ⟨e, he⟩ := lookup_some_of_chain hchain
    (List.mem_append_right _ (List.mem_cons_self _ _))
  obtain ⟨-, -, hc, hlim, -, hval⟩ := get_spec hchain he
  exact ⟨hc, hlim, hval⟩

/-- A sequence of Put calls, for the LRU-correctness scenario. -/
def putList (lru : LRU K V) (kvs : List (K × V)) : LRU K V :=
  kvs.foldl (fun s p => put s p.1 p.2) lru

theorem take_append_take (L : Nat) (A B : List K) :
    (A ++ B.take L).take L = (A ++ B).take L := by
  rw [List.take_append_eq_append_take, List.take_append_eq_append_take,
    List.take_take]
  rw [min_eq_left (Nat.sub_le L A.length)]

theorem putList_chain {lru : LRU K V} {ks : List K} :
    ∀ (kvs : List (K × V)),
      ChainInv lru ks → (ks.length : Int) ≤ max lru.limit 0 →
      (∀ p ∈ kvs, p.1 ∉ ks) → (kvs.map Prod.fst).Nodup →
      ChainInv (putList lru kvs)
        (((kvs.map Prod.fst).reverse ++ ks).take lru.limit.toNat) ∧
      (putList lru kvs).limit = lru.limit ∧
      ((((kvs.map Prod.fst).reverse ++ ks).take lru.limit.toNat).length : Int)
        ≤ max lru.limit 0 := by
  intro kvs
  induction kvs generalizing lru ks with
  | nil =>
    intro hchain hcap hfresh hnd
    have hlen : ks.length ≤ lru.limit.toNat := by omega
    have htake : (([] : List K) ++ ks).take lru.limit.toNat = ks := by
      rw [List.nil_append]
      exact List.take_of_length_le hlen
    rw [show ((([] : List (K × V)).map Prod.fst).reverse : List K) = [] from rfl]
    rw [htake]
    exact ⟨hchain, rfl, hcap⟩
  | cons kv rest ih =>
    intro hchain hcap hfresh hnd
    obtain ⟨k1, v1⟩ := kv
    have hk1 : k1 ∉ ks := hfresh (k1, v1) (List.mem_cons_self _ _)
    rw [List.map_cons, List.nodup_cons] at hnd
    obtain ⟨hk1rest, hndrest⟩ := hnd
    -- one put: the new chain is the L-truncation of k1 :: ks
    have hstep : ChainInv (put lru k1 v1) ((k1 :: ks).take lru.limit.toNat) ∧
        (put lru k1 v1).limit = lru.limit := by
      by_cases hfit : ((ks.length + 1 : Nat) : Int) ≤ lru.limit
      · obtain ⟨hc, hlim, -, -⟩ := put_fresh_step k1 v1 hchain hk1 hfit
        have : (k1 :: ks).take lru.limit.toNat = k1 :: ks := by
          apply List.take_of_length_le
          rw [List.length_cons]
          omega
        rw [this]
        exact ⟨hc, hlim⟩
      · obtain ⟨hc, hlim, -, -⟩ := put_evict_step k1 v1 hchain hk1 hfit
        have : (k1 :: ks).take lru.limit.toNat = (k1 :: ks).dropLast := by
          rw [List.dropLast_eq_take, List.length_cons]
          have : ks.length + 1 - 1 = lru.limit.toNat := by omega
          rw [this]
        rw [this]
        exact ⟨hc, hlim⟩
    obtain ⟨hc1, hlim1⟩ := hstep
    have hcap1 : ((((k1 :: ks).take lru.limit.toNat).length : Nat) : Int)
        ≤ max (put lru k1 v1).limit 0 := by
      rw [hlim1, List.length_take]
      have := Int.toNat_eq_max lru.limit
      have h2 : min lru.limit.toNat (k1 :: ks).length ≤ lru.limit.toNat :=
        min_le_left _ _
      omega
    have hfresh1 : ∀ p ∈ rest, p.1 ∉ (k1 :: ks).take lru.limit.toNat := by
      intro p hp hmem
      have hmem2 : p.1 ∈ k1 :: ks := List.take_subset _ _ hmem
      rcases List.mem_cons.1 hmem2 with he | hm
      · exact hk1rest (he ▸ List.mem_map.2 ⟨p, hp, rfl⟩)
      · exact hfresh p (List.mem_cons_of_mem _ hp) hm
    obtain ⟨hcfin, hlimfin, hcapfin⟩ := ih hc1 hcap1 hfresh1 hndrest
    rw [hlim1] at hcfin hcapfin
    have hlist : ((rest.map Prod.fst).reverse ++ (k1 :: ks).take lru.limit.toNat).take
          lru.limit.toNat
        = ((((k1, v1) :: rest).map Prod.fst).reverse ++ ks).take lru.limit.toNat := by
      rw [take_append_take]
      rw [List.map_cons, List.reverse_cons, List.append_assoc]
      rfl
    rw [show putList lru ((k1, v1) :: rest) = putList (put lru k1 v1) rest from rfl]
    rw [← hlist]
    exact ⟨hcfin, hlimfin.trans hlim1, hcapfin⟩

/-! ### Claim theorems -/

/-- Claim C1: for every reachable cache state, Size() equals the number of
entries reached by walking the order list from head via next to tail, and this
equals the number of keys in the hash index; and for every sequence of
Put/PutIfAbsent calls on NewLRU(limit) with non-negative limit, Size() is at
most limit after every call. -/
theorem claim1_size_invariant_and_capacity {K V : Type} [DecidableEq K]
    [Inhabited V] :
    (∀ lru : LRU K V, Reachable lru →
      size lru = (walkKeys lru).length ∧ size lru = (keysOf lru.mp).length) ∧
    (∀ (limit : Int) (ops : List (POp K V)), 0 ≤ limit →
      (size (applyPOps (NewLRU K V limit) ops) : Int) ≤ limit) := by
  constructor
  · intro lru hreach
    obtain ⟨ks, hchain, -⟩ := inv_reachable hreach
    constructor
    · rw [walk_of_chain hchain]
      exact size_of_chain hchain
    · rw [keysOf_length]
      rfl
  · intro limit ops hlim
    have hinv := inv_applyPOps ops (inv_new limit : Inv (NewLRU K V limit))
    have hl : (applyPOps (NewLRU K V limit) ops).limit = limit :=
      limit_applyPOps _ ops
    have := size_le_of_inv hinv (by rw [hl]; exact hlim)
    rwa [hl] at this

/-- Claim C2: Put on an absent key creates an entry holding that key and value,
inserts it at the head of the order list and increments the size; if the size
then exceeds the limit, the current tail is removed from both the hash index
and the order list.  Put on a present key overwrites the stored value in place,
moves the entry to the head, and leaves the size unchanged. -/
theorem claim2_put_semantics {K V : Type} [DecidableEq K] (lru : LRU K V)
    (k : K) (v : V) (hinv : Inv lru) :
    (mapLookup lru.mp k = none →
      walkKeys (put lru k v) =
        (if ((size lru + 1 : Nat) : Int) ≤ lru.limit then k :: walkKeys lru
          else (k :: walkKeys lru).dropLast) ∧
      (((size lru + 1 : Nat) : Int) ≤ lru.limit →
        size (put lru k v) = size lru + 1 ∧
        (put lru k v).entities.head = some k ∧
        valOf (put lru k v).mp k = some v) ∧
      (¬ ((size lru + 1 : Nat) : Int) ≤ lru.limit →
        size (put lru k v) = size lru ∧
        ∀ t, (k :: walkKeys lru).getLast? = some t →
          mapLookup (put lru k v).mp t = none)) ∧
    (∀ e, mapLookup lru.mp k = some e →
      walkKeys (put lru k v) = k :: (walkKeys lru).erase k ∧
      size (put lru k v) = size lru ∧
      (put lru k v).entities.head = some k ∧
      valOf (put lru k v).mp k = some v ∧
      ∀ x, x ≠ k → valOf (put lru k v).mp x = valOf lru.mp x) := by
  obtain ⟨ks, hchain, hcap⟩ := hinv
  constructor
  · intro habs
    have hk : k ∉ ks := (lookup_none_of_chain hchain).1 habs
    obtain ⟨hc, hlim, hvo, hvk⟩ := put_absent_spec v hchain habs
    rw [mplen_of_chain hchain] at hc hvo hvk
    rw [walk_of_chain hchain, show size lru = ks.length from size_of_chain hchain]
    by_cases hcase : ((ks.length + 1 : Nat) : Int) ≤ lru.limit
    · rw [if_pos hcase] at hc hvo hvk ⊢
      refine ⟨walk_of_chain hc, fun _ => ⟨?_, ?_, ?_⟩,
        fun hcon => absurd hcase hcon⟩
      · rw [size_of_chain hc, List.length_cons]
      · exact hc.elinv.headEq
      · exact hvk (List.mem_cons_self _ _)
    · rw [if_neg hcase] at hc hvo hvk ⊢
      refine ⟨walk_of_chain hc, fun hcon => absurd hcon hcase,
        fun _ => ⟨?_, ?_⟩⟩
      · rw [size_of_chain hc, List.length_dropLast, List.length_cons]
        omega
      · intro t hgl
        have hne : (k :: ks) ≠ [] := List.cons_ne_nil _ _
        rw [List.getLast?_eq_getLast_of_ne_nil hne, Option.some.injEq] at hgl
        have hsplit : (k :: ks).dropLast ++ [t] = k :: ks := by
          rw [← hgl]
          exact List.dropLast_append_getLast hne
        have hnodup : (k :: ks).Nodup :=
          List.nodup_cons.2 ⟨hk, hchain.elinv.nodup⟩
        rw [← hsplit, List.nodup_append] at hnodup
        have htno : t ∉ (k :: ks).dropLast :=
          fun hm => hnodup.2.2 hm (List.mem_cons_self _ _)
        exact (lookup_none_of_chain hc).2 htno
  · intro e he
    obtain ⟨xs, ys, rfl⟩ := chainInv_decomp hchain he
    obtain ⟨hc, hlim, hlen, hvk, hvo⟩ := put_present_spec v hchain he
    have hkxs : k ∉ xs := (not_mem_of_nodup_middle hchain.elinv.nodup).1
    refine ⟨?_, hlen, hc.elinv.headEq, hvk, hvo⟩
    rw [walk_of_chain hc, walk_of_chain hchain, erase_middle hkxs]

/-- Claim C7: Clear removes all entries: afterwards Size() is 0 and Get misses
for every key with the zero value, the limit is unchanged, and a second Clear
leaves the state identical. -/
theorem claim7_clear_idempotent {K V : Type} [DecidableEq K] [Inhabited V]
    (lru : LRU K V) :
    size (clear lru) = 0 ∧
    (∀ k : K, get (clear lru) k = (false, default, clear lru)) ∧
    (clear lru).limit = lru.limit ∧
    clear (clear lru) = clear lru :=
  ⟨rfl, fun k => get_miss rfl, rfl, rfl⟩

/-- Claim C10: with a non-positive limit, every insertion immediately evicts
the entry it just created, so after any sequence of operations the cache is
still the empty cache: Size() is 0 and every Get misses with the zero value. -/
theorem claim10_nonpositive_limit_empty {K V : Type} [DecidableEq K]
    [Inhabited V] (limit : Int) (hlim : limit ≤ 0) (ops : List (CacheOp K V)) :
    size (applyOps (NewLRU K V limit) ops) = 0 ∧
    ∀ k : K, get (applyOps (NewLRU K V limit) ops) k
      = (false, default, applyOps (NewLRU K V limit) ops) := by
  rw [applyOps_new_nonpos hlim ops]
  exact ⟨rfl, fun k => get_miss rfl⟩

theorem get_hit_components [Inhabited V] {lru : LRU K V} {k : K}
    {e : lruEntity K V} (he : mapLookup lru.mp k = some e) :
    (get lru k).1 = true ∧ (get lru k).2.1 = e.value := by
  delta get
  dsimp only
  rw [he]
  exact ⟨rfl, rfl⟩

/-- Claim C4: PutIfAbsent on an absent key behaves exactly like Put (including
eviction) and returns (true, value); on a present key it does not overwrite
the value, does not change the recency position (the whole state is untouched)
and returns (false, existing value); in the capacity-3 scenario a redundant
PutIfAbsent returns (false, original value) and a subsequent insertion of a
fourth key still evicts the first key, not the second. -/
theorem claim4_putIfAbsent_semantics {K V : Type} [DecidableEq K] [Inhabited V] :
    (∀ (lru : LRU K V) (k : K) (v : V), mapLookup lru.mp k = none →
      putIfAbsent lru k v = (true, v, put lru k v)) ∧
    (∀ (lru : LRU K V) (k : K) (v : V) (e : lruEntity K V),
      mapLookup lru.mp k = some e →
      putIfAbsent lru k v = (false, e.value, lru)) ∧
    (∀ (k1 k2 k3 k4 : K) (v1 v2 v3 other v4 : V),
      k1 ≠ k2 → k1 ≠ k3 → k1 ≠ k4 → k2 ≠ k3 → k2 ≠ k4 → k3 ≠ k4 →
      putIfAbsent (put (put (put (NewLRU K V 3) k1 v1) k2 v2) k3 v3) k1 other
        = (false, v1, put (put (put (NewLRU K V 3) k1 v1) k2 v2) k3 v3) ∧
      mapLookup (put (putIfAbsent (put (put (put (NewLRU K V 3) k1 v1) k2 v2)
        k3 v3) k1 other).2.2 k4 v4).mp k1 = none ∧
      mapLookup (put (putIfAbsent (put (put (put (NewLRU K V 3) k1 v1) k2 v2)
        k3 v3) k1 other).2.2 k4 v4).mp k2 ≠ none) := by
  refine ⟨fun lru k v habs => putIfAbsent_absent_eq v habs,
    fun lru k v e he => putIfAbsent_present_eq v he, ?_⟩
  intro k1 k2 k3 k4 v1 v2 v3 other v4 h12 h13 h14 h23 h24 h34
  obtain ⟨hc1, hl1, hv1, -⟩ := put_fresh_step k1 v1
    (chain_new 3) (by simp) (by norm_num [NewLRU])
  obtain ⟨hc2, hl2, hv2, hp2⟩ := put_fresh_step k2 v2 hc1
    (by simp [Ne.symm h12]) (by rw [hl1]; norm_num [NewLRU])
  obtain ⟨hc3, hl3, hv3, hp3⟩ := put_fresh_step k3 v3 hc2
    (by simp [Ne.symm h13, Ne.symm h23]) (by rw [hl2, hl1]; norm_num [NewLRU])
  -- value of k1 survives both later puts
  have hval1 : valOf (put (put (put (NewLRU K V 3) k1 v1) k2 v2) k3 v3).mp k1
      = some v1 := by
    rw [hp3 k1 h13 (by simp), hp2 k1 h12 (by simp), hv1]
  have hv1e : ∃ e, mapLookup (put (put (put (NewLRU K V 3) k1 v1) k2 v2)
      k3 v3).mp k1 = some e ∧ e.value = v1 := by
    unfold valOf at hval1
    exact Option.map_eq_some'.1 hval1
  obtain ⟨e1, he1, hev1⟩ := hv1e
  have hpia : putIfAbsent (put (put (put (NewLRU K V 3) k1 v1) k2 v2) k3 v3)
      k1 other = (false, v1, put (put (put (NewLRU K V 3) k1 v1) k2 v2) k3 v3) := by
    rw [putIfAbsent_present_eq other he1, hev1]
  refine ⟨hpia, ?_⟩
  rw [hpia]
  obtain ⟨hc4, -, -, -⟩ := put_evict_step k4 v4 hc3
    (by simp [Ne.symm h14, Ne.symm h24, Ne.symm h34])
    (by rw [hl3, hl2, hl1]; norm_num [NewLRU])
  constructor
  · exact (lookup_none_of_chain hc4).2 (by simp [h14, h13, h12])
  · intro hnone
    exact absurd ((lookup_none_of_chain hc4).1 hnone) (by simp)

/-- Claim C5: Get on a present key returns (true, stored value) and moves that
entry to the head of the order list (a no-op when it is already the head);
Get on an absent key returns (false, zero value) and leaves the state
unchanged; and Put(k,v) immediately followed by Get(k) returns (true, v)
whenever the limit is positive (so that the put cannot evict its own entry). -/
theorem claim5_get_semantics {K V : Type} [DecidableEq K] [Inhabited V] :
    (∀ (lru : LRU K V) (k : K) (e : lruEntity K V), Inv lru →
      mapLookup lru.mp k = some e →
      (get lru k).1 = true ∧ (get lru k).2.1 = e.value ∧
      walkKeys (get lru k).2.2 = k :: (walkKeys lru).erase k ∧
      (lru.entities.head = some k → (get lru k).2.2 = lru)) ∧
    (∀ (lru : LRU K V) (k : K), mapLookup lru.mp k = none →
      get lru k = (false, default, lru)) ∧
    (∀ (lru : LRU K V) (k : K) (v : V), Inv lru → 0 < lru.limit →
      (get (put lru k v) k).1 = true ∧ (get (put lru k v) k).2.1 = v) := by
  refine ⟨?_, fun lru k habs => get_miss habs, ?_⟩
  · intro lru k e hinv he
    obtain ⟨ks, hchain, -⟩ := hinv
    obtain ⟨xs, ys, rfl⟩ := chainInv_decomp hchain he
    obtain ⟨h1, h2, hc, -, -, -⟩ := get_spec hchain he
    have hkxs : k ∉ xs := (not_mem_of_nodup_middle hchain.elinv.nodup).1
    refine ⟨h1, h2, ?_, fun hhead => by rw [get_head_noop he hhead]⟩
    rw [walk_of_chain hc, walk_of_chain hchain, erase_middle hkxs]
  · intro lru k v hinv hpos
    have hval : valOf (put lru k v).mp k = some v := by
      obtain ⟨ks, hchain, hcap⟩ := hinv
      cases hl : mapLookup lru.mp k with
      | some e =>
        obtain ⟨xs, ys, rfl⟩ := chainInv_decomp hchain hl
        exact (put_present_spec v hchain hl).2.2.2.1
      | none =>
        have hk : k ∉ ks := (lookup_none_of_chain hchain).1 hl
        by_cases hcase : ((ks.length + 1 : Nat) : Int) ≤ lru.limit
        · exact (put_fresh_step k v hchain hk hcase).2.2.1
        · obtain ⟨-, -, -, hvk⟩ := put_evict_step k v hchain hk hcase
          apply hvk
          have hne : ks ≠ [] := by
            rintro rfl
            refine hcase ?_
            simp only [List.length_nil]
            push_cast
            omega
          obtain ⟨m, hm⟩ : ∃ m, ks.length = m + 1 := by
            cases hq : ks.length with
            | zero => exact absurd (List.length_eq_zero.1 hq) hne
            | succ m => exact ⟨m, rfl⟩
          rw [List.dropLast_eq_take, List.length_cons, hm,
            show m + 1 + 1 - 1 = m + 1 from rfl, List.take_succ_cons]
          exact List.mem_cons_self _ _
    have hv' : ∃ e, mapLookup (put lru k v).mp k = some e ∧ e.value = v := by
      unfold valOf at hval
      exact Option.map_eq_some'.1 hval
    obtain ⟨e', he', hev⟩ := hv'
    obtain ⟨hg1, hg2⟩ := get_hit_components he'
    exact ⟨hg1, hg2.trans hev⟩

/-- Claim C6: Evict on a present key removes the entry from both the hash
index and the order list regardless of recency position and returns
(true, removed value); on an absent key it returns (false, zero value) and is
a no-op on the state. -/
theorem claim6_evict_semantics {K V : Type} [DecidableEq K] [Inhabited V] :
    (∀ (lru : LRU K V) (k : K) (e : lruEntity K V), Inv lru →
      mapLookup lru.mp k = some e →
      (evict lru k).1 = true ∧ (evict lru k).2.1 = e.value ∧
      mapLookup (evict lru k).2.2.mp k = none ∧
      walkKeys (evict lru k).2.2 = (walkKeys lru).erase k ∧
      (∀ x, x ≠ k → valOf (evict lru k).2.2.mp x = valOf lru.mp x)) ∧
    (∀ (lru : LRU K V) (k : K), mapLookup lru.mp k = none →
      evict lru k = (false, default, lru)) := by
  refine ⟨?_, fun lru k habs => evict_miss habs⟩
  intro lru k e hinv he
  obtain ⟨ks, hchain, -⟩ := hinv
  obtain ⟨xs, ys, rfl⟩ := chainInv_decomp hchain he
  obtain ⟨hc, -, hnone, hval, -⟩ := evictEntity_spec hchain
  have hkxs : k ∉ xs := (not_mem_of_nodup_middle hchain.elinv.nodup).1
  rw [evict_hit_eq he]
  exact ⟨rfl, rfl, hnone,
    by rw [walk_of_chain hc, walk_of_chain hchain, erase_middle hkxs], hval⟩

/-- Claim C3: eviction always removes exactly the current tail (strict
least-recently-used) and exactly one entry per capacity-breaching insertion:
inserting limit+1 distinct keys in order with no intervening Get leaves the
first key absent and the rest present; and at capacity 3, after inserting
k1,k2,k3 in order, a Get(k1) followed by inserting k4 evicts k2, not k1. -/
theorem claim3_lru_eviction_order {K V : Type} [DecidableEq K] [Inhabited V] :
    (∀ limit : Int, 0 < limit →
      ∀ (k1 : K) (v1 : V) (rest : List (K × V)),
        (k1 :: rest.map Prod.fst).Nodup →
        ((rest.length : Nat) : Int) = limit →
        mapLookup (putList (NewLRU K V limit) ((k1, v1) :: rest)).mp k1 = none ∧
        ∀ p ∈ rest,
          mapLookup (putList (NewLRU K V limit) ((k1, v1) :: rest)).mp p.1
            ≠ none) ∧
    (∀ (k1 k2 k3 k4 : K) (v1 v2 v3 v4 : V),
      k1 ≠ k2 → k1 ≠ k3 → k1 ≠ k4 → k2 ≠ k3 → k2 ≠ k4 → k3 ≠ k4 →
      mapLookup (put (get (put (put (put (NewLRU K V 3) k1 v1) k2 v2) k3 v3)
        k1).2.2 k4 v4).mp k2 = none ∧
      mapLookup (put (get (put (put (put (NewLRU K V 3) k1 v1) k2 v2) k3 v3)
        k1).2.2 k4 v4).mp k1 ≠ none) := by
  constructor
  · intro limit hpos k1 v1 rest hnd hlen
    have hnd' : (((k1, v1) :: rest).map Prod.fst).Nodup := by
      rw [List.map_cons]
      exact hnd
    have hcap0 : (((([] : List K)).length : Nat) : Int) ≤ max limit 0 := by
      simpa using le_max_right limit 0
    obtain ⟨hc, -, -⟩ := putList_chain ((k1, v1) :: rest) (chain_new limit)
      hcap0 (by simp) hnd'
    have hk1nr : k1 ∉ rest.map Prod.fst := (List.nodup_cons.1 hnd).1
    have hlenr : ((rest.map Prod.fst).reverse).length = limit.toNat := by
      rw [List.length_reverse, List.length_map]
      omega
    have htake : ((((k1, v1) :: rest).map Prod.fst).reverse ++ ([] : List K)).take
        (NewLRU K V limit).limit.toNat = (rest.map Prod.fst).reverse := by
      rw [List.append_nil, List.map_cons, List.reverse_cons,
        show (NewLRU K V limit).limit = limit from rfl,
        List.take_append_eq_append_take,
        List.take_of_length_le (le_of_eq hlenr), hlenr, Nat.sub_self]
      simp
    rw [htake] at hc
    constructor
    · refine (lookup_none_of_chain hc).2 ?_
      rw [List.mem_reverse]
      exact hk1nr
    · intro p hp hnone
      refine absurd ((lookup_none_of_chain hc).1 hnone) ?_
      rw [not_not, List.mem_reverse]
      exact List.mem_map.2 ⟨p, hp, rfl⟩
  · intro k1 k2 k3 k4 v1 v2 v3 v4 h12 h13 h14 h23 h24 h34
    obtain ⟨hc1, hl1, -, -⟩ := put_fresh_step k1 v1
      (chain_new 3) (by simp) (by norm_num [NewLRU])
    obtain ⟨hc2, hl2, -, -⟩ := put_fresh_step k2 v2 hc1
      (by simp [Ne.symm h12]) (by rw [hl1]; norm_num [NewLRU])
    obtain ⟨hc3, hl3, -, -⟩ := put_fresh_step k3 v3 hc2
      (by simp [Ne.symm h13, Ne.symm h23]) (by rw [hl2, hl1]; norm_num [NewLRU])
    have hc3' : ChainInv (put (put (put (NewLRU K V 3) k1 v1) k2 v2) k3 v3)
        ([k3, k2] ++ k1 :: []) := hc3
    obtain ⟨hcg, hlg, -⟩ := get_promote_step hc3'
    have hcg' : ChainInv (get (put (put (put (NewLRU K V 3) k1 v1) k2 v2)
        k3 v3) k1).2.2 [k1, k3, k2] := hcg
    obtain ⟨hc4, -, -, -⟩ := put_evict_step k4 v4 hcg'
      (by simp [Ne.symm h14, Ne.symm h24, Ne.symm h34])
      (by rw [hlg, hl3, hl2, hl1]; norm_num [NewLRU])
    have hc4' : ChainInv (put (get (put (put (put (NewLRU K V 3) k1 v1) k2 v2)
        k3 v3) k1).2.2 k4 v4) [k4, k1, k3] := hc4
    constructor
    · exact (lookup_none_of_chain hc4').2 (by simp [h24, Ne.symm h12, h23])
    · intro hnone
      exact absurd ((lookup_none_of_chain hc4').1 hnone) (by simp)

/-- The capacity bound read literally over every constructible cache fails for
a negative limit: one Put on NewLRU(-1) inserts and immediately self-evicts,
leaving Size() = 0, and 0 is not at most -1. -/
theorem claim1_capacity_counterexample :
    ¬ ((size (applyPOps (NewLRU Nat Nat (-1)) [POp.pput 1 5]) : Int) ≤ -1) := by
  decide

/-! ### Concrete witnesses -/

theorem claim1_witness :
    (size (put (NewLRU Nat Nat 2) 1 5) =
      (walkKeys (put (NewLRU Nat Nat 2) 1 5)).length) ∧
    ((size (applyPOps (NewLRU Nat Nat 2)
      [POp.pput 1 5, POp.pput 2 6, POp.pput 3 7]) : Int) ≤ 2) :=
  ⟨(claim1_size_invariant_and_capacity.1 _
      (Reachable.rput 1 5 (Reachable.rnew 2))).1,
    claim1_size_invariant_and_capacity.2 2
      [POp.pput 1 5, POp.pput 2 6, POp.pput 3 7] (by decide)⟩

theorem claim2_witness :
    walkKeys (put (NewLRU Nat Nat 2) 5 7) =
      (if ((size (NewLRU Nat Nat 2) + 1 : Nat) : Int) ≤ (NewLRU Nat Nat 2).limit
        then 5 :: walkKeys (NewLRU Nat Nat 2)
        else (5 :: walkKeys (NewLRU Nat Nat 2)).dropLast) :=
  ((claim2_put_semantics (NewLRU Nat Nat 2) 5 7 (inv_new 2)).1 rfl).1

theorem claim3_witness :
    (mapLookup (putList (NewLRU Nat Nat 1) [(1, 10), (2, 20)]).mp 1 = none) ∧
    mapLookup (put (get (put (put (put (NewLRU Nat Nat 3) 1 10) 2 20) 3 30)
      1).2.2 4 40).mp 2 = none :=
  ⟨(claim3_lru_eviction_order.1 1 (by decide) 1 10 [(2, 20)] (by decide)
      (by decide)).1,
    (claim3_lru_eviction_order.2 1 2 3 4 10 20 30 40 (by decide) (by decide)
      (by decide) (by decide) (by decide) (by decide)).1⟩

theorem claim4_witness :
    putIfAbsent (NewLRU Nat Nat 3) 1 10
      = (true, 10, put (NewLRU Nat Nat 3) 1 10) ∧
    putIfAbsent (put (put (put (NewLRU Nat Nat 3) 1 10) 2 20) 3 30) 1 99
      = (false, 10, put (put (put (NewLRU Nat Nat 3) 1 10) 2 20) 3 30) :=
  ⟨claim4_putIfAbsent_semantics.1 (NewLRU Nat Nat 3) 1 10 rfl,
    (claim4_putIfAbsent_semantics.2.2 1 2 3 4 10 20 30 99 40 (by decide)
      (by decide) (by decide) (by decide) (by decide) (by decide)).1⟩

theorem claim5_witness :
    get (NewLRU Nat Nat 3) 9 = (false, default, NewLRU Nat Nat 3) ∧
    ((get (put (NewLRU Nat Nat 3) 1 10) 1).1 = true ∧
      (get (put (NewLRU Nat Nat 3) 1 10) 1).2.1 = 10) :=
  ⟨claim5_get_semantics.2.1 (NewLRU Nat Nat 3) 9 rfl,
    claim5_get_semantics.2.2 (NewLRU Nat Nat 3) 1 10 (inv_new 3) (by decide)⟩

theorem claim6_witness :
    evict (NewLRU Nat Nat 3) 9 = (false, default, NewLRU Nat Nat 3) ∧
    (evict (put (NewLRU Nat Nat 3) 1 10) 1).1 = true :=
  ⟨claim6_evict_semantics.2 (NewLRU Nat Nat 3) 9 rfl,
    (claim6_evict_semantics.1 (put (NewLRU Nat Nat 3) 1 10) 1
      { value := 10, prev := none, next := none }
      (inv_put 1 10 (inv_new 3)) rfl).1⟩

theorem claim10_witness :
    size (applyOps (NewLRU Nat Nat 0) [CacheOp.cput 1 5, CacheOp.cget 1]) = 0 :=
  (claim10_nonpositive_limit_empty 0 (by decide)
    [CacheOp.cput 1 5, CacheOp.cget 1]).1

end Caches

namespace Collections

variable {T : Type}

/-- The single structurally-invalid-input error of the list collaborator
(collections.ErrIndexOutOfRange). -/
inductive ListError where
  | indexOutOfRange
deriving DecidableEq

/-- ConcurrentLinkedList, abstracted to the sequence of its item values from
first to last (each listItem is the node at its position). -/
structure ConcurrentLinkedList (T : Type) where
  items : List T
deriving DecidableEq

/-- The search loop of getByIndex:
for i, item := 0, first; item != nil; i, item = i+1, item.next
  { if i == index { return item, nil } }. -/
def findLoop : List T → Int → Int → Option T
  | [], _, _ => none
  | x :: rest, i, index => if i = index then some x else findLoop rest (i + 1) index

/-- getByIndex: the range guard and the walk; `none` stands for returning
(nil, ErrIndexOutOfRange). -/
def getByIndex (clist : ConcurrentLinkedList T) (index : Int) : Option T :=
  if 0 ≤ index ∧ index < (clist.items.length : Int) then
    findLoop clist.items 0 index
  else none

/-- ConcurrentLinkedList.Get: value (or zero value) and error. -/
def listGet [Inhabited T] (clist : ConcurrentLinkedList T) (index : Int) :
    T × Option ListError :=
  match getByIndex clist index with
  | some v => (v, none)
  | none => (default, some .indexOutOfRange)

/-- ConcurrentLinkedList.Remove: on success the found node (the one at
position `index`) is spliced out of the chain; value, error, new state. -/
def listRemove [Inhabited T] (clist : ConcurrentLinkedList T) (index : Int) :
    T × Option ListError × ConcurrentLinkedList T :=
  match getByIndex clist index with
  | some v => (v, none, { items := clist.items.eraseIdx index.toNat })
  | none => (default, some .indexOutOfRange, clist)

/-- ConcurrentLinkedList.Size. -/
def listSize (clist : ConcurrentLinkedList T) : Nat := clist.items.length

theorem findLoop_eq {T : Type} : ∀ (items : List T) (i index : Int),
    i ≤ index → index - i < (items.length : Int) →
    findLoop items i index = items.get? (index - i).toNat
  | [], i, index, hle, hlt => by
    exfalso
    simp only [List.length_nil, Nat.cast_zero] at hlt
    omega
  | x :: rest, i, index, hle, hlt => by
    simp only [findLoop]
    by_cases he : i = index
    · rw [if_pos he]
      rw [show (index - i).toNat = 0 from by omega]
      rfl
    · rw [if_neg he]
      have h1 : i + 1 ≤ index := by omega
      have h2 : index - (i + 1) < (rest.length : Int) := by
        rw [List.length_cons] at hlt
        push_cast at hlt ⊢
        omega
      rw [findLoop_eq rest (i + 1) index h1 h2]
      rw [show (index - i).toNat = (index - (i + 1)).toNat + 1 from by omega]
      rfl

theorem getByIndex_out {T : Type} {clist : ConcurrentLinkedList T} {index : Int}
    (h : index < 0 ∨ (clist.items.length : Int) ≤ index) :
    getByIndex clist index = none := by
  unfold getByIndex
  rw [if_neg]
  rintro ⟨h1, h2⟩
  rcases h with h | h <;> omega

theorem getByIndex_in {T : Type} {clist : ConcurrentLinkedList T} {index : Int}
    (h1 : 0 ≤ index) (h2 : index < (clist.items.length : Int))
    (hlt : index.toNat < clist.items.length) :
    getByIndex clist index = some (clist.items.get ⟨index.toNat, hlt⟩) := by
  unfold getByIndex
  rw [if_pos ⟨h1, h2⟩]
  rw [findLoop_eq clist.items 0 index h1 (by omega)]
  rw [show (index - 0).toNat = index.toNat from by omega]
  exact List.get?_eq_get hlt

/-- Claim C8: in the companion concurrent linked list, for every out-of-range
index (negative, or at least the list size) Get and Remove return the zero
value of T together with the distinct error ErrIndexOutOfRange and Remove
leaves the list unchanged; for every in-range index they return the element at
that position with no error. -/
theorem claim8_list_index_errors {T : Type} [Inhabited T] :
    (∀ (clist : ConcurrentLinkedList T) (index : Int),
      index < 0 ∨ (listSize clist : Int) ≤ index →
      listGet clist index = (default, some ListError.indexOutOfRange) ∧
      listRemove clist index = (default, some ListError.indexOutOfRange, clist)) ∧
    (∀ (clist : ConcurrentLinkedList T) (index : Int), 0 ≤ index →
      index < (listSize clist : Int) →
      ∀ hlt : index.toNat < clist.items.length,
      listGet clist index = (clist.items.get ⟨index.toNat, hlt⟩, none) ∧
      listRemove clist index = (clist.items.get ⟨index.toNat, hlt⟩, none,
        ⟨clist.items.eraseIdx index.toNat⟩)) := by
  constructor
  · intro clist index h
    have h' : index < 0 ∨ (clist.items.length : Int) ≤ index := h
    constructor
    · unfold listGet
      rw [getByIndex_out h']
    · unfold listRemove
      rw [getByIndex_out h']
  · intro clist index h1 h2 hlt
    have h2' : index < (clist.items.length : Int) := h2
    constructor
    · unfold listGet
      rw [getByIndex_in h1 h2' hlt]
    · unfold listRemove
      rw [getByIndex_in h1 h2' hlt]

theorem claim8_witness :
    listGet (⟨[10, 20, 30]⟩ : ConcurrentLinkedList Nat) 5
      = (default, some ListError.indexOutOfRange) ∧
    listGet (⟨[10, 20, 30]⟩ : ConcurrentLinkedList Nat) 1 = (20, none) :=
  ⟨(claim8_list_index_errors.1 ⟨[10, 20, 30]⟩ 5 (by decide)).1,
    (claim8_list_index_errors.2 ⟨[10, 20, 30]⟩ 1 (by decide) (by decide)
      (by decide)).1⟩

end Collections
